import Mathlib

set_option linter.unusedSectionVars false

/-!
Verification of the shelver build orchestrator against its specification.

The Python sources are shallowly embedded: each Python function used by a
claim is translated into an executable Lean definition over explicit data
(association lists for dicts, `Except` for exceptions, oracles for external
collaborators such as the event loop, the provider and the builder tool).
Python exceptions are values of `PyErr`; `asyncio.CancelledError` is kept
distinct from ordinary exceptions where a claim depends on it.
-/

namespace Shelver

/-- Shelver's exception hierarchy, from shelver/errors.py.  `generic` stands
for a bare `ShelverError(msg)`. -/
inductive ShelverErr where
  | generic : String → ShelverErr
  | config : String → ShelverErr
  | unknownImage : String → ShelverErr
  | unknownArtifact : String → String → ShelverErr
  | packer : Int → List String → ShelverErr
  deriving DecidableEq, Repr

/-- Python-level exceptions that the embedded code can raise.  `shelver`
wraps the project's own `ShelverError` hierarchy; the others are the
built-in exception types the sources can produce. -/
inductive PyErr where
  | shelver : ShelverErr → PyErr
  | typeError : String → PyErr
  | valueError : String → PyErr
  | keyError : String → PyErr
  | indexError : String → PyErr
  | invalidState : String → PyErr
  deriving DecidableEq, Repr

/-- Is this exception an instance of `ShelverError` (for `except ShelverError`
clauses)? -/
def PyErr.isShelver : PyErr → Bool
  | .shelver _ => true
  | _ => false

/-- Python values, as far as shelver's `deep_merge`, `freeze` and template
processing distinguish them.  `dict` stands for any mutable mapping with a
`copy` method (dict, OrderedDict); `fdict` for immutable `Mapping`s
(`FrozenDict` and similar).  `set`/`fset` are set and frozenset, `list` and
`tup` the two ordered sequences.  Mappings keep their insertion order as an
association list, exactly as Python dicts do. -/
inductive PyVal where
  | none : PyVal
  | bool : Bool → PyVal
  | int : Int → PyVal
  | str : String → PyVal
  | dict : List (String × PyVal) → PyVal
  | fdict : List (String × PyVal) → PyVal
  | set : List PyVal → PyVal
  | fset : List PyVal → PyVal
  | list : List PyVal → PyVal
  | tup : List PyVal → PyVal
  deriving Repr

mutual

/-- Structural equality of embedded Python values (same constructor, equal
contents).  This is the identity of the embedding, used for `x in set`
membership tests; it is finer than Python `==` across container types. -/
def pyBeq : PyVal → PyVal → Bool
  | .none, .none => true
  | .bool a, .bool b => a == b
  | .int a, .int b => a == b
  | .str a, .str b => a == b
  | .dict a, .dict b => pyBeqPairs a b
  | .fdict a, .fdict b => pyBeqPairs a b
  | .set a, .set b => pyBeqList a b
  | .fset a, .fset b => pyBeqList a b
  | .list a, .list b => pyBeqList a b
  | .tup a, .tup b => pyBeqList a b
  | _, _ => false
termination_by a _ => sizeOf a

def pyBeqPairs : List (String × PyVal) → List (String × PyVal) → Bool
  | [], [] => true
  | (k, v) :: l, (k', v') :: r => k == k' && pyBeq v v' && pyBeqPairs l r
  | _, _ => false
termination_by l _ => sizeOf l

def pyBeqList : List PyVal → List PyVal → Bool
  | [], [] => true
  | v :: l, v' :: r => pyBeq v v' && pyBeqList l r
  | _, _ => false
termination_by l _ => sizeOf l

end

instance : BEq PyVal := ⟨pyBeq⟩

/-- First-match association-list lookup: Python `d[k]` / `k in d` on the
(unique-keyed) dicts the sources build. -/
def lookupStr (l : List (String × PyVal)) (k : String) : Option PyVal :=
  match l with
  | [] => Option.none
  | (k', v) :: rest => if k' = k then some v else lookupStr rest k

/-- `is_collection` from shelver/util.py: an `Iterable` that is neither
`bytes` nor `str`.  Mappings, sets and sequences are iterable; scalars are
not. -/
def pyIsCollection : PyVal → Bool
  | .dict _ | .fdict _ | .set _ | .fset _ | .list _ | .tup _ => true
  | _ => false

/-- Iterating a Python collection: a mapping yields its keys, sets and
sequences their elements.  Used by `deep_merge` via `set(right)` and
`chain(left, right)`. -/
def pyElems : PyVal → List PyVal
  | .dict l | .fdict l => l.map (fun p => PyVal.str p.1)
  | .set l | .fset l | .list l | .tup l => l
  | _ => []

/-- Insert into a Python set modelled as a duplicate-free list. -/
def setInsert (l : List PyVal) (x : PyVal) : List PyVal :=
  if l.contains x then l else l ++ [x]

/-- `left | set(right)`: union of a set with the elements of a collection. -/
def setUnion (l : List PyVal) (r : List PyVal) : List PyVal :=
  r.foldl setInsert l

mutual

/-- `deep_merge` from shelver/util.py.  Mapping vs mapping merges key-wise
(the mutable-`copy` path and the `_merge_mapping` generator path produce the
same association list for unique-keyed dicts: left entries in order, merged
where the key is shared, then right-only entries in right order), and the
left operand's concrete mapping type is preserved.  Set vs collection is
union; ordered sequence vs collection concatenates preserving the left
type; mapping vs non-mapping and collection vs non-collection raise
`ValueError`; scalar vs anything returns the right operand. -/
def deep_merge : PyVal → PyVal → Except String PyVal
  | PyVal.dict l, r =>
    match r with
    | PyVal.dict rl | PyVal.fdict rl =>
        (mergeLeft l rl).map
          (fun a => PyVal.dict (a ++ rl.filter (fun p => (lookupStr l p.1).isNone)))
    | _ => Except.error "Cannot merge Mapping and non-Mapping"
  | PyVal.fdict l, r =>
    match r with
    | PyVal.dict rl | PyVal.fdict rl =>
        (mergeLeft l rl).map
          (fun a => PyVal.fdict (a ++ rl.filter (fun p => (lookupStr l p.1).isNone)))
    | _ => Except.error "Cannot merge Mapping and non-Mapping"
  | PyVal.set l, r =>
    if pyIsCollection r then Except.ok (PyVal.set (setUnion l (pyElems r)))
    else Except.error "Cannot merge Set and non-Collection"
  | PyVal.fset l, r =>
    if pyIsCollection r then Except.ok (PyVal.fset (setUnion l (pyElems r)))
    else Except.error "Cannot merge Set and non-Collection"
  | PyVal.list l, r =>
    if pyIsCollection r then Except.ok (PyVal.list (l ++ pyElems r))
    else Except.error "Cannot merge Collection and non-Collection"
  | PyVal.tup l, r =>
    if pyIsCollection r then Except.ok (PyVal.tup (l ++ pyElems r))
    else Except.error "Cannot merge Collection and non-Collection"
  | _, r => Except.ok r
termination_by a _ => sizeOf a

/-- The shared-key half of the mapping merge: left entries in order, each
value merged with the right value when the key is present on the right. -/
def mergeLeft : List (String × PyVal) → List (String × PyVal) → Except String (List (String × PyVal))
  | [], _ => Except.ok []
  | (k, v) :: rest, rl =>
    match lookupStr rl k with
    | Option.none => (mergeLeft rest rl).map (fun t => (k, v) :: t)
    | Option.some rv => do
        let m ← deep_merge v rv
        let t ← mergeLeft rest rl
        Except.ok ((k, m) :: t)
termination_by l _ => sizeOf l

end

/-- The concrete top-level type of a Python value (`type(x)`), as far as the
embedding distinguishes types. -/
inductive PyType where
  | none | bool | int | str | dict | fdict | set | fset | list | tup
  deriving DecidableEq, Repr

def topType : PyVal → PyType
  | .none => .none
  | .bool _ => .bool
  | .int _ => .int
  | .str _ => .str
  | .dict _ => .dict
  | .fdict _ => .fdict
  | .set _ => .set
  | .fset _ => .fset
  | .list _ => .list
  | .tup _ => .tup

def pyIsMapping : PyVal → Bool
  | .dict _ | .fdict _ => true
  | _ => false

/-- Ordered sequences (`is_collection` that is neither a mapping nor a
set). -/
def pyIsSeq : PyVal → Bool
  | .list _ | .tup _ => true
  | _ => false

def pairsOf : PyVal → Option (List (String × PyVal))
  | .dict l | .fdict l => some l
  | _ => Option.none

def emptyDict : PyVal := PyVal.dict []

theorem mergeLeft_nil_right (l : List (String × PyVal)) :
    mergeLeft l [] = Except.ok l := by
  induction l with
  | nil => simp [mergeLeft]
  | cons p rest ih =>
    obtain ⟨k, v⟩ := p
    simp [mergeLeft, lookupStr, ih, Except.map]

theorem except_map_ok {α β γ : Type} (f : α → β) (e : Except γ α) (v : β)
    (h : e.map f = Except.ok v) : ∃ w, e = Except.ok w ∧ v = f w := by
  cases e with
  | error m => simp [Except.map] at h
  | ok w => exact ⟨w, rfl, by simpa [Except.map] using h.symm⟩

theorem deep_merge_dict_empty (l : List (String × PyVal)) :
    deep_merge (PyVal.dict l) emptyDict = Except.ok (PyVal.dict l) := by
  simp [deep_merge, emptyDict, mergeLeft_nil_right, Except.map]

theorem deep_merge_fdict_empty (l : List (String × PyVal)) :
    deep_merge (PyVal.fdict l) emptyDict = Except.ok (PyVal.fdict l) := by
  simp [deep_merge, emptyDict, mergeLeft_nil_right, Except.map]

theorem deep_merge_empty_left (a : PyVal) (l : List (String × PyVal))
    (h : pairsOf a = some l) :
    deep_merge emptyDict a = Except.ok (PyVal.dict l) := by
  cases a <;> simp [pairsOf] at h <;>
    simp [deep_merge, emptyDict, mergeLeft, lookupStr, Except.map, h,
      List.filter_eq_self]

/-- C7 helper: successful merges preserve the left operand's concrete
container type. -/
theorem deep_merge_type_preserved (a b v : PyVal)
    (h : deep_merge a b = Except.ok v) (hc : pyIsCollection a = true) :
    topType v = topType a := by
  cases a <;> simp [pyIsCollection] at hc <;> cases b <;>
    simp only [deep_merge] at h <;>
    first
      | (obtain ⟨w, _, rfl⟩ := except_map_ok _ _ _ h; rfl)
      | (split at h <;> simp_all <;> subst h <;> rfl)
      | simp_all

/-- C7 helper: merging a mapping with a non-mapping raises `ValueError`. -/
theorem deep_merge_mapping_error (a b : PyVal)
    (ha : pyIsMapping a = true) (hb : pyIsMapping b = false) :
    ∃ m, deep_merge a b = Except.error m := by
  cases a <;> simp [pyIsMapping] at ha <;> cases b <;>
    simp [pyIsMapping] at hb <;>
    exact ⟨"Cannot merge Mapping and non-Mapping", by simp [deep_merge]⟩

/-- C7 helper: merging an ordered sequence with a non-collection raises
`ValueError`. -/
theorem deep_merge_seq_error (a b : PyVal)
    (ha : pyIsSeq a = true) (hb : pyIsCollection b = false) :
    ∃ m, deep_merge a b = Except.error m := by
  cases a <;> simp [pyIsSeq] at ha <;>
    exact ⟨"Cannot merge Collection and non-Collection", by simp [deep_merge, hb]⟩

/-- C7: for every mapping `a`, `deep_merge(a, {})` returns `a` itself and
`deep_merge({}, a)` returns a dict holding exactly `a`'s key-value pairs
(Python `==`-equal to `a`, since `Mapping.__eq__` compares items); on every
successful merge the result's top-level container type equals the left
operand's concrete type; merging a mapping with a non-mapping, or an
ordered sequence with a non-collection, fails with a `ValueError`. -/
theorem deep_merge_spec (a b : PyVal) :
    (pyIsMapping a = true → deep_merge a emptyDict = Except.ok a) ∧
    (∀ l, pairsOf a = some l →
      deep_merge emptyDict a = Except.ok (PyVal.dict l) ∧ pairsOf (PyVal.dict l) = some l) ∧
    (∀ v, deep_merge a b = Except.ok v → pyIsCollection a = true →
      topType v = topType a) ∧
    (pyIsMapping a = true → pyIsMapping b = false →
      ∃ m, deep_merge a b = Except.error m) ∧
    (pyIsSeq a = true → pyIsCollection b = false →
      ∃ m, deep_merge a b = Except.error m) := by
  refine ⟨?_, ?_, ?_, ?_, ?_⟩
  · intro ha
    cases a <;> simp [pyIsMapping] at ha <;>
      simp [deep_merge_dict_empty, deep_merge_fdict_empty]
  · intro l hl
    exact ⟨deep_merge_empty_left a l hl, rfl⟩
  · intro v h hc
    exact deep_merge_type_preserved a b v h hc
  · exact deep_merge_mapping_error a b
  · exact deep_merge_seq_error a b

/-- Witness for C7 at concrete inputs. -/
theorem deep_merge_spec_witness :
    deep_merge (PyVal.dict [("x", PyVal.int 1)]) emptyDict
        = Except.ok (PyVal.dict [("x", PyVal.int 1)]) ∧
    (∃ m, deep_merge (PyVal.dict []) (PyVal.int 7) = Except.error m) :=
  ⟨(deep_merge_spec (PyVal.dict [("x", PyVal.int 1)]) PyVal.none).1 rfl,
   (deep_merge_spec (PyVal.dict []) (PyVal.int 7)).2.2.2.1 rfl rfl⟩

theorem length_filter_partition {β : Type} (l : List β) (p : β → Bool) :
    (l.filter p).length + (l.filter (fun x => !p x)).length = l.length := by
  have h := (List.filter_append_perm p l).length_eq
  simpa using h

section Topo

variable {α : Type} [DecidableEq α]

/-- Keys (destinations) of the edge mapping `dest → sources` of
`topological_sort` (shelver/util.py). -/
def keysOf (edges : List (α × List α)) : List α := edges.map Prod.fst

/-- One drained level of the outer while loop: every leaf of the level is
removed from every source set (`sources.remove(leaf)`). -/
def removeLeaves (leaves : List α) (edges : List (α × List α)) :
    List (α × List α) :=
  edges.map (fun p => (p.1, p.2.filter (fun s => decide (s ∉ leaves))))

/-- Destinations whose source set has been exhausted: they join the leaf
queue for the next level. -/
def nextLeaves (edges1 : List (α × List α)) : List α :=
  (edges1.filter (fun p => p.2.isEmpty)).map Prod.fst

/-- Edges that still have unsatisfied sources after a level is drained. -/
def liveEdges (edges1 : List (α × List α)) : List (α × List α) :=
  edges1.filter (fun p => !p.2.isEmpty)

/-- The outer `while leaves` loop of `topological_sort`: drains the current
leaf queue as one level, removes those leaves from all source sets, moves
every destination whose source set became empty into the next leaf queue,
and returns the accumulated level list together with the residual edges. -/
def sortLoop : List (α × List α) → List α → List (List α) × List (α × List α)
  | edges, [] => ([], edges)
  | edges, leaf :: rest =>
    let next := sortLoop (liveEdges (removeLeaves (leaf :: rest) edges))
      (nextLeaves (removeLeaves (leaf :: rest) edges))
    ((leaf :: rest) :: next.1, next.2)
termination_by edges leaves => edges.length + leaves.length
decreasing_by
  have h := length_filter_partition (removeLeaves (leaf :: rest) edges)
    (fun p => p.2.isEmpty)
  simp only [liveEdges, nextLeaves, removeLeaves, List.length_map,
    List.length_cons] at h ⊢
  omega

/-- `topological_sort` from shelver/util.py.  The initial leaves are the
nodes that are not a destination of any edge; on termination the function
returns the level list, unless residual edges remain, in which case it
raises `TopologicalSortError` carrying the residual edge mapping. -/
def topological_sort (nodes : List α) (edges : List (α × List α)) :
    Except (List (α × List α)) (List (List α)) :=
  let leaves := nodes.filter (fun n => decide (n ∉ keysOf edges))
  let res := sortLoop edges leaves
  if res.2.isEmpty then Except.ok res.1 else Except.error res.2

theorem sortLoop_nil (edges : List (α × List α)) :
    sortLoop edges [] = ([], edges) := by
  simp [sortLoop]

theorem sortLoop_cons (edges : List (α × List α)) (leaf : α) (rest : List α) :
    sortLoop edges (leaf :: rest) =
      ((leaf :: rest) ::
        (sortLoop (liveEdges (removeLeaves (leaf :: rest) edges))
          (nextLeaves (removeLeaves (leaf :: rest) edges))).1,
       (sortLoop (liveEdges (removeLeaves (leaf :: rest) edges))
          (nextLeaves (removeLeaves (leaf :: rest) edges))).2) := by
  rw [sortLoop]

theorem mem_removeLeaves (leaves : List α) (edges : List (α × List α))
    (d : α) (ss : List α) :
    (d, ss) ∈ removeLeaves leaves edges ↔
      ∃ ss₀, (d, ss₀) ∈ edges ∧ ss = ss₀.filter (fun s => decide (s ∉ leaves)) := by
  simp only [removeLeaves, List.mem_map]
  constructor
  · rintro ⟨⟨d₀, ss₀⟩, hmem, heq⟩
    simp only [Prod.mk.injEq] at heq
    exact ⟨ss₀, by rw [heq.1] at hmem; exact hmem, heq.2.symm⟩
  · rintro ⟨ss₀, hmem, rfl⟩
    exact ⟨(d, ss₀), hmem, rfl⟩

theorem keysOf_removeLeaves (leaves : List α) (edges : List (α × List α)) :
    keysOf (removeLeaves leaves edges) = keysOf edges := by
  simp [keysOf, removeLeaves, List.map_map, Function.comp]

theorem keysOf_split (edges1 : List (α × List α)) (x : α) :
    x ∈ keysOf edges1 ↔ x ∈ nextLeaves edges1 ∨ x ∈ keysOf (liveEdges edges1) := by
  simp only [keysOf, nextLeaves, liveEdges, List.mem_map, List.mem_filter]
  constructor
  · rintro ⟨p, hp, rfl⟩
    by_cases he : p.2.isEmpty
    · exact Or.inl ⟨p, ⟨hp, he⟩, rfl⟩
    · exact Or.inr ⟨p, ⟨hp, by simp [he]⟩, rfl⟩
  · rintro (⟨p, ⟨hp, _⟩, rfl⟩ | ⟨p, ⟨hp, _⟩, rfl⟩) <;> exact ⟨p, hp, rfl⟩

theorem nodupKeys_inj {edges : List (α × List α)}
    (h : (keysOf edges).Nodup) {p q : α × List α}
    (hp : p ∈ edges) (hq : q ∈ edges) (heq : p.1 = q.1) : p = q := by
  induction edges with
  | nil => cases hp
  | cons e tl ih =>
    simp only [keysOf, List.map_cons, List.nodup_cons] at h
    rcases List.mem_cons.1 hp with rfl | hp' <;>
      rcases List.mem_cons.1 hq with rfl | hq'
    · rfl
    · exact absurd (heq ▸ List.mem_map_of_mem Prod.fst hq') h.1
    · exact absurd (heq ▸ List.mem_map_of_mem Prod.fst hp') h.1
    · exact ih h.2 hp' hq'

theorem keysOf_liveEdges_nodup {edges1 : List (α × List α)}
    (h : (keysOf edges1).Nodup) : (keysOf (liveEdges edges1)).Nodup :=
  h.sublist ((List.filter_sublist edges1).map Prod.fst)

theorem nextLeaves_nodup {edges1 : List (α × List α)}
    (h : (keysOf edges1).Nodup) : (nextLeaves edges1).Nodup :=
  h.sublist ((List.filter_sublist edges1).map Prod.fst)

theorem nextLeaves_not_live {edges1 : List (α × List α)}
    (h : (keysOf edges1).Nodup) (x : α) (hx : x ∈ nextLeaves edges1) :
    x ∉ keysOf (liveEdges edges1) := by
  intro hlive
  simp only [nextLeaves, keysOf, liveEdges, List.mem_map, List.mem_filter] at hx hlive
  obtain ⟨p, ⟨hp, hpe⟩, rfl⟩ := hx
  obtain ⟨q, ⟨hq, hqe⟩, hfst⟩ := hlive
  have := nodupKeys_inj h hq hp hfst
  subst this
  simp [hpe] at hqe

/-- The split of keys into exhausted and live destinations, as a
permutation. -/
theorem nextLeaves_append_live_perm (edges1 : List (α × List α)) :
    (nextLeaves edges1 ++ keysOf (liveEdges edges1)).Perm (keysOf edges1) := by
  have h := (List.filter_append_perm (fun p => p.2.isEmpty) edges1).map Prod.fst
  simpa [nextLeaves, keysOf, liveEdges] using h

/-- Every node drained into a level or left in the residual comes from the
initial leaf queue or the edge destinations, each exactly once: the flattened
levels plus the residual keys are a permutation of `leaves ++ keys`. -/
theorem sortLoop_join_perm (edges : List (α × List α)) (leaves : List α) :
    ((sortLoop edges leaves).1.flatten ++ keysOf (sortLoop edges leaves).2).Perm
      (leaves ++ keysOf edges) := by
  induction edges, leaves using sortLoop.induct with
  | case1 edges => simp [sortLoop_nil]
  | case2 edges leaf rest ih =>
    rw [sortLoop_cons]
    simp only [List.flatten_cons, List.append_assoc]
    refine List.Perm.append_left (leaf :: rest) ?_
    refine ih.trans ?_
    refine (nextLeaves_append_live_perm (removeLeaves (leaf :: rest) edges)).trans ?_
    rw [keysOf_removeLeaves]

/-- Kahn ordering: whenever a destination `d` of an edge with source `s`
is drained into level `k`, the source `s` was drained into a strictly
earlier level. -/
theorem sortLoop_dep (edges : List (α × List α)) (leaves : List α) :
    (keysOf edges).Nodup → (∀ x ∈ leaves, x ∉ keysOf edges) →
    ∀ d ss, (d, ss) ∈ edges → ∀ s ∈ ss, ∀ k,
      d ∈ (sortLoop edges leaves).1.getD k [] →
      ∃ j, j < k ∧ s ∈ (sortLoop edges leaves).1.getD j [] := by
  induction edges, leaves using sortLoop.induct with
  | case1 edges =>
    intro _ _ d ss _ s _ k hd
    rw [sortLoop_nil] at hd
    simp at hd
  | case2 edges leaf rest ih =>
    intro hkeys hdisj d ss hmem s hs k hd
    rw [sortLoop_cons] at hd ⊢
    have hkeys1 : (keysOf (removeLeaves (leaf :: rest) edges)).Nodup := by
      rw [keysOf_removeLeaves]; exact hkeys
    match k with
    | 0 =>
      rw [List.getD_cons_zero] at hd
      exact absurd (List.mem_map_of_mem Prod.fst hmem) (hdisj d hd)
    | Nat.succ k' =>
      rw [List.getD_cons_succ] at hd
      have hentry1 : (d, ss.filter (fun s => decide (s ∉ leaf :: rest))) ∈
          removeLeaves (leaf :: rest) edges :=
        (mem_removeLeaves _ _ _ _).2 ⟨ss, hmem, rfl⟩
      by_cases hsl : s ∈ leaf :: rest
      · exact ⟨0, Nat.succ_pos k', by rw [List.getD_cons_zero]; exact hsl⟩
      · have hsf : s ∈ ss.filter (fun s => decide (s ∉ leaf :: rest)) := by
          simp only [List.mem_filter, decide_eq_true_eq]
          exact ⟨hs, hsl⟩
        have hlive : (d, ss.filter (fun s => decide (s ∉ leaf :: rest))) ∈
            liveEdges (removeLeaves (leaf :: rest) edges) := by
          simp only [liveEdges, List.mem_filter]
          refine ⟨hentry1, ?_⟩
          simp only [Bool.not_eq_eq_eq_not, Bool.not_true, List.isEmpty_eq_false,
            Bool.not_eq_true]
          exact List.ne_nil_of_mem hsf
        obtain ⟨j', hlt, hsmem⟩ :=
          ih (hkeys1.sublist ((List.filter_sublist _).map Prod.fst))
            (fun x hx => nextLeaves_not_live hkeys1 x hx) d _ hlive s hsf k' hd
        exact ⟨j' + 1, Nat.succ_lt_succ hlt, by rw [List.getD_cons_succ]; exact hsmem⟩

/-- A nonempty edge set whose sources are all destinations and whose edges
strictly decrease a rank function is impossible: the minimal-rank
destination would need a smaller one. -/
theorem edges_empty_of_rank (edges : List (α × List α))
    (hne : ∀ d ss, (d, ss) ∈ edges → ss ≠ [])
    (hsrc : ∀ d ss, (d, ss) ∈ edges → ∀ s ∈ ss, s ∈ keysOf edges)
    (rank : α → Nat)
    (hrank : ∀ d ss, (d, ss) ∈ edges → ∀ s ∈ ss, rank s < rank d) :
    edges = [] := by
  have aux : ∀ n d ss, (d, ss) ∈ edges → rank d < n → False := by
    intro n
    induction n with
    | zero => intro d ss _ h; omega
    | succ n ihn =>
      intro d ss hmem hlt
      obtain ⟨s, hsmem⟩ := List.exists_mem_of_ne_nil _ (hne d ss hmem)
      obtain ⟨p, hp, hfst⟩ := List.mem_map.1 (hsrc d ss hmem s hsmem)
      subst hfst
      exact ihn p.1 p.2 hp (by have := hrank d ss hmem p.1 hsmem; omega)
  cases edges with
  | nil => rfl
  | cons p tl =>
    exact (aux (rank p.1 + 1) p.1 p.2 (List.mem_cons_self p tl)
      (Nat.lt_succ_self _)).elim

/-- Kahn completeness: under a strict rank function (an acyclic graph) with
nonempty source sets all drawn from the leaf queue or the destinations, the
loop drains everything and leaves no residual edges. -/
theorem sortLoop_success (edges : List (α × List α)) (leaves : List α)
    (rank : α → Nat) :
    (∀ d ss, (d, ss) ∈ edges → ss ≠ []) →
    (∀ d ss, (d, ss) ∈ edges → ∀ s ∈ ss, s ∈ leaves ∨ s ∈ keysOf edges) →
    (∀ d ss, (d, ss) ∈ edges → ∀ s ∈ ss, rank s < rank d) →
    (sortLoop edges leaves).2 = [] := by
  induction edges, leaves using sortLoop.induct with
  | case1 edges =>
    intro hne hsrc hrank
    rw [sortLoop_nil]
    refine edges_empty_of_rank edges hne ?_ rank hrank
    intro d ss hmem s hsmem
    rcases hsrc d ss hmem s hsmem with h | h
    · cases h
    · exact h
  | case2 edges leaf rest ih =>
    intro hne hsrc hrank
    rw [sortLoop_cons]
    refine ih ?_ ?_ ?_
    · intro d ss hmem
      simp only [liveEdges, List.mem_filter, Bool.not_eq_eq_eq_not, Bool.not_true,
        List.isEmpty_eq_false, Bool.not_eq_true] at hmem
      exact hmem.2
    · intro d ss hmem s hsmem
      have hmem1 : (d, ss) ∈ removeLeaves (leaf :: rest) edges :=
        List.mem_of_mem_filter hmem
      obtain ⟨ss₀, hss₀, rfl⟩ := (mem_removeLeaves _ _ _ _).1 hmem1
      have hs0 : s ∈ ss₀ ∧ s ∉ leaf :: rest := by
        simpa [List.mem_filter] using hsmem
      have := hsrc d ss₀ hss₀ s hs0.1
      rcases this with h | h
      · exact absurd h hs0.2
      · rw [(keysOf_removeLeaves (leaf :: rest) edges).symm] at h
        exact Or.symm ((keysOf_split _ s).1 h).symm
    · intro d ss hmem s hsmem
      have hmem1 : (d, ss) ∈ removeLeaves (leaf :: rest) edges :=
        List.mem_of_mem_filter hmem
      obtain ⟨ss₀, hss₀, rfl⟩ := (mem_removeLeaves _ _ _ _).1 hmem1
      exact hrank d ss₀ hss₀ s (List.mem_of_mem_filter hsmem)

/-- Every residual edge is a sub-edge of an original edge: same
destination, sources a subset of the original sources. -/
theorem sortLoop_residual (edges : List (α × List α)) (leaves : List α) :
    ∀ p ∈ (sortLoop edges leaves).2, ∃ ss₀, (p.1, ss₀) ∈ edges ∧ p.2 ⊆ ss₀ := by
  induction edges, leaves using sortLoop.induct with
  | case1 edges =>
    intro p hp
    rw [sortLoop_nil] at hp
    exact ⟨p.2, hp, List.Subset.refl _⟩
  | case2 edges leaf rest ih =>
    intro p hp
    rw [sortLoop_cons] at hp
    obtain ⟨ss₀, hmem, hsub⟩ := ih p hp
    have hmem1 : (p.1, ss₀) ∈ removeLeaves (leaf :: rest) edges :=
      List.mem_of_mem_filter hmem
    obtain ⟨ss₁, hss₁, rfl⟩ := (mem_removeLeaves _ _ _ _).1 hmem1
    exact ⟨ss₁, hss₁, fun x hx => List.mem_of_mem_filter (hsub hx)⟩

/-- Index of the first level containing `x` (specification-side rank
function extracted from a successful sort). -/
def firstLevel : List (List α) → α → Nat
  | [], _ => 0
  | l :: ls, x => if x ∈ l then 0 else firstLevel ls x + 1

theorem firstLevel_le (ls : List (List α)) (x : α) (k : Nat)
    (h : x ∈ ls.getD k []) : firstLevel ls x ≤ k := by
  induction ls generalizing k with
  | nil => simp at h
  | cons l ls ih =>
    match k with
    | 0 =>
      rw [List.getD_cons_zero] at h
      simp [firstLevel, h]
    | Nat.succ k' =>
      rw [List.getD_cons_succ] at h
      by_cases hx : x ∈ l
      · simp [firstLevel, hx]
      · simp only [firstLevel, if_neg hx]
        exact Nat.succ_le_succ (ih k' h)

theorem mem_getD_firstLevel (ls : List (List α)) (x : α)
    (h : x ∈ ls.flatten) : x ∈ ls.getD (firstLevel ls x) [] := by
  induction ls with
  | nil => simp at h
  | cons l ls ih =>
    by_cases hx : x ∈ l
    · simp [firstLevel, hx]
    · have h' : x ∈ ls.flatten := by
        rw [List.flatten_cons] at h
        rcases List.mem_append.1 h with h1 | h1
        · exact absurd h1 hx
        · exact h1
      simp only [firstLevel, if_neg hx, List.getD_cons_succ]
      exact ih h'

/-- A successful `topological_sort` run means the loop ended with no
residual edges and returned its level list. -/
theorem topological_sort_ok_iff (nodes : List α) (edges : List (α × List α))
    (levels : List (List α)) :
    topological_sort nodes edges = Except.ok levels ↔
      (sortLoop edges (nodes.filter (fun n => decide (n ∉ keysOf edges)))).2 = [] ∧
      (sortLoop edges (nodes.filter (fun n => decide (n ∉ keysOf edges)))).1 = levels := by
  simp only [topological_sort]
  split <;> rename_i hemp <;> rw [List.isEmpty_iff] at hemp
  · constructor
    · intro h
      injection h with h
      exact ⟨hemp, h⟩
    · rintro ⟨_, rfl⟩
      rfl
  · constructor
    · intro h; cases h
    · rintro ⟨h1, _⟩; exact absurd h1 hemp

/-- A failing `topological_sort` raises with the (nonempty) residual
edges. -/
theorem topological_sort_error_iff (nodes : List α) (edges : List (α × List α))
    (r : List (α × List α)) :
    topological_sort nodes edges = Except.error r ↔
      (sortLoop edges (nodes.filter (fun n => decide (n ∉ keysOf edges)))).2 = r ∧
      r ≠ [] := by
  simp only [topological_sort]
  split <;> rename_i hemp <;> rw [List.isEmpty_iff] at hemp
  · constructor
    · intro h; cases h
    · rintro ⟨rfl, hne⟩; exact absurd hemp hne
  · constructor
    · intro h
      injection h with h
      exact ⟨h, h ▸ hemp⟩
    · rintro ⟨rfl, _⟩; rfl

/-- On success every node appears in the level sequence exactly once (the
flattened levels are a permutation of the nodes). -/
theorem topological_sort_perm (nodes : List α) (edges : List (α × List α))
    (levels : List (List α))
    (hok : topological_sort nodes edges = Except.ok levels)
    (hnodes : nodes.Nodup) (hkeys : (keysOf edges).Nodup)
    (hsub : ∀ x ∈ keysOf edges, x ∈ nodes) :
    levels.flatten.Perm nodes := by
  obtain ⟨hres, hlev⟩ := (topological_sort_ok_iff nodes edges levels).1 hok
  have hperm := sortLoop_join_perm edges
    (nodes.filter (fun n => decide (n ∉ keysOf edges)))
  rw [hres, hlev] at hperm
  simp only [keysOf, List.map_nil, List.append_nil] at hperm
  refine hperm.trans ?_
  have hleaves : (nodes.filter (fun n => decide (n ∉ keysOf edges))).Nodup :=
    hnodes.filter _
  have hdisj : (nodes.filter (fun n => decide (n ∉ keysOf edges))).Disjoint
      (keysOf edges) := by
    intro x hx hk
    have := (List.mem_filter.1 hx).2
    simp only [decide_eq_true_eq] at this
    exact this hk
  refine (List.perm_ext_iff_of_nodup (hleaves.append hkeys hdisj) hnodes).2 ?_
  intro x
  simp only [List.mem_append, List.mem_filter, decide_eq_true_eq]
  constructor
  · rintro (⟨hn, _⟩ | hk)
    · exact hn
    · exact hsub x hk
  · intro hn
    by_cases hk : x ∈ keysOf edges
    · exact Or.inr hk
    · exact Or.inl ⟨hn, hk⟩

/-- On success, each edge's destination sits in a strictly later level than
every one of its sources, measured by first containing level. -/
theorem topological_sort_rank (nodes : List α) (edges : List (α × List α))
    (levels : List (List α))
    (hok : topological_sort nodes edges = Except.ok levels)
    (hnodes : nodes.Nodup) (hkeys : (keysOf edges).Nodup)
    (hsub : ∀ x ∈ keysOf edges, x ∈ nodes) :
    ∀ d ss, (d, ss) ∈ edges → ∀ s ∈ ss,
      firstLevel levels s < firstLevel levels d := by
  intro d ss hmem s hs
  obtain ⟨hres, hlev⟩ := (topological_sort_ok_iff nodes edges levels).1 hok
  have hperm := topological_sort_perm nodes edges levels hok hnodes hkeys hsub
  have hd : d ∈ levels.flatten :=
    hperm.mem_iff.2 (hsub d (List.mem_map_of_mem Prod.fst hmem))
  have hdl : d ∈ levels.getD (firstLevel levels d) [] :=
    mem_getD_firstLevel levels d hd
  have hdisj : ∀ x ∈ nodes.filter (fun n => decide (n ∉ keysOf edges)),
      x ∉ keysOf edges := by
    intro x hx
    have := (List.mem_filter.1 hx).2
    simpa using this
  have hdep := sortLoop_dep edges
    (nodes.filter (fun n => decide (n ∉ keysOf edges))) hkeys hdisj
    d ss hmem s hs (firstLevel levels d) (by rw [hlev]; exact hdl)
  obtain ⟨j, hlt, hsmem⟩ := hdep
  rw [hlev] at hsmem
  exact Nat.lt_of_le_of_lt (firstLevel_le levels s j hsmem) hlt

/-- Acyclicity via a rank function guarantees success. -/
theorem topological_sort_success (nodes : List α) (edges : List (α × List α))
    (rank : α → Nat)
    (hne : ∀ d ss, (d, ss) ∈ edges → ss ≠ [])
    (hsrcn : ∀ d ss, (d, ss) ∈ edges → ∀ s ∈ ss, s ∈ nodes)
    (hrank : ∀ d ss, (d, ss) ∈ edges → ∀ s ∈ ss, rank s < rank d) :
    ∃ levels, topological_sort nodes edges = Except.ok levels := by
  have hres := sortLoop_success edges
    (nodes.filter (fun n => decide (n ∉ keysOf edges))) rank hne ?_ hrank
  · exact ⟨_, (topological_sort_ok_iff nodes edges _).2 ⟨hres, rfl⟩⟩
  · intro d ss hmem s hs
    by_cases hk : s ∈ keysOf edges
    · exact Or.inr hk
    · refine Or.inl (List.mem_filter.2 ⟨hsrcn d ss hmem s hs, by simpa using hk⟩)

end Topo

/-- Python `s.split(sep, maxsplit)` on character lists: `maxsplit = none`
splits on every separator; once the budget reaches `some 0` the remainder
(separators included) becomes the final field.  Always returns at least one
field, like Python. -/
def pySplitAux (sep : Char) : Option Nat → List Char → List Char → List (List Char)
  | _, acc, [] => [acc.reverse]
  | some 0, acc, rest => [acc.reverse ++ rest]
  | n, acc, c :: cs =>
    if c = sep then acc.reverse :: pySplitAux sep (n.map (fun m => m - 1)) [] cs
    else pySplitAux sep n (c :: acc) cs

/-- Python `s.split(sep, maxsplit)` on strings. -/
def pySplit (s : String) (sep : Char) (maxsplit : Option Nat) : List String :=
  (pySplitAux sep maxsplit [] s.toList).map (fun l => String.mk l)

/-- Image record (shelver/image.py), restricted to the fields that the
verified claims consume.  `Image.parse_config` stores each image under its
`name`, so catalog lookups by name find an image whose `name` field is the
key. -/
structure Image where
  name : String
  current_version : String
  base : Option String
  deriving DecidableEq, Repr

/-- `Image.base_with_version`: a falsy (missing or empty) base gives
`(None, None)`; otherwise split on the first colon, and when there is no
colon the whole base is the name and the version is `None`. -/
def Image.base_with_version (img : Image) : Option String × Option String :=
  match img.base with
  | Option.none => (Option.none, Option.none)
  | some b =>
    if b = "" then (Option.none, Option.none)
    else
      match pySplit b ':' (some 1) with
      | [n, v] => (some n, some v)
      | _ => (some b, Option.none)

/-- Provider artifact, reduced to the provider-assigned id the core treats
as opaque. -/
structure Artifact where
  id : String
  deriving DecidableEq, Repr

/-- Generic first-match association lookup (Python dict access on the
unique-keyed dicts the registry maintains). -/
def lookupKV {β : Type} : List (String × β) → String → Option β
  | [], _ => Option.none
  | (k', v) :: rest, k => if k' = k then some v else lookupKV rest k

/-- The Registry's three indexes (shelver/registry.py): the image catalog
(`_images`, name-keyed, also serving as `_image_set`), the artifact index
`_artifacts`, and the per-image version index `_versions` (keyed here by
image name; catalog image names are unique). -/
structure Registry where
  images : List Image
  artifacts : List (String × Artifact)
  versions : List ((String × String) × Artifact)
  deriving Repr

/-- `Registry.get_image(name, default=None)`: catalog lookup by name. -/
def Registry.get_image_opt (reg : Registry) (n : String) : Option Image :=
  reg.images.find? (fun i => i.name == n)

/-- `addEdge` models one `edges[base_image].append(image)` on the
`defaultdict(list)` in `Registry.check_cycles`: append to the existing
entry, or create a singleton entry at the end. -/
def addEdge (edges : List (String × List String)) (dest src : String) :
    List (String × List String) :=
  match edges with
  | [] => [(dest, [src])]
  | (d, ss) :: rest =>
    if d = dest then (d, ss ++ [src]) :: rest
    else (d, ss) :: addEdge rest dest src

/-- The edge-construction loop of `Registry.check_cycles`: for every image
with a base, skip bases that are pre-registered artifact keys, resolve the
base name in the catalog (raising `UnknownImageError` when absent), and
record the edge `base_image → image`. -/
def build_edges (reg : Registry) :
    List Image → List (String × List String) →
    Except PyErr (List (String × List String))
  | [], acc => Except.ok acc
  | img :: rest, acc =>
    match (Image.base_with_version img).1 with
    | Option.none => build_edges reg rest acc
    | some bn =>
      if (lookupKV reg.artifacts bn).isSome then build_edges reg rest acc
      else
        match reg.get_image_opt bn with
        | some bimg => build_edges reg rest (addEdge acc bimg.name img.name)
        | Option.none => Except.error (.shelver (.unknownImage bn))

/-- `Registry.check_cycles`: build the image dependency graph (ignoring
bases resolved by pre-registered artifacts), run `topological_sort` and
raise `ConfigurationError` when it fails.  The function body never returns
a value: the sort's level sequence is discarded, so a successful call
returns Python `None`, embedded as `Option.none`.  (The cycle message uses
`' <- '.format(dest, srcs)`, a format string without placeholders, so each
residual entry contributes the literal text.) -/
def check_cycles (reg : Registry) : Except PyErr (Option (List (List String))) := do
  let edges ← build_edges reg reg.images []
  match topological_sort (reg.images.map Image.name) edges with
  | Except.ok _ => pure Option.none
  | Except.error r =>
      throw (.shelver (.config ("Image dependency graph contains cycles: " ++
        String.intercalate ", " (r.map (fun _ => " <- ")))))

theorem get_image_opt_name {reg : Registry} {n : String} {img : Image}
    (h : reg.get_image_opt n = some img) : img.name = n ∧ img ∈ reg.images := by
  refine ⟨?_, List.mem_of_find?_eq_some h⟩
  have := List.find?_some h
  exact eq_of_beq this

theorem keysOf_addEdge (edges : List (String × List String)) (dest src : String) :
    keysOf (addEdge edges dest src) =
      if dest ∈ keysOf edges then keysOf edges else keysOf edges ++ [dest] := by
  induction edges with
  | nil => simp [addEdge, keysOf]
  | cons p rest ih =>
    obtain ⟨d, ss⟩ := p
    by_cases hd : d = dest
    · subst hd
      simp [addEdge, keysOf]
    · simp only [addEdge, if_neg hd, keysOf, List.map_cons] at ih ⊢
      rw [ih]
      have hne : ¬dest = d := fun h => hd h.symm
      by_cases hmem : dest ∈ List.map Prod.fst rest <;>
        simp [hmem, List.mem_cons, hne]

theorem keysOf_addEdge_nodup {edges : List (String × List String)}
    {dest src : String} (h : (keysOf edges).Nodup) :
    (keysOf (addEdge edges dest src)).Nodup := by
  rw [keysOf_addEdge]
  split <;> rename_i hmem
  · exact h
  · simp [List.nodup_append, h, hmem]

theorem mem_addEdge {edges : List (String × List String)} {dest src x : String}
    {ss : List String} (h : (x, ss) ∈ addEdge edges dest src) :
    (x, ss) ∈ edges ∨ (x = dest ∧ ss = [src]) ∨
      (x = dest ∧ ∃ ss₀, (x, ss₀) ∈ edges ∧ ss = ss₀ ++ [src]) := by
  induction edges with
  | nil =>
    simp only [addEdge, List.mem_singleton, Prod.mk.injEq] at h
    exact Or.inr (Or.inl ⟨h.1, h.2⟩)
  | cons p rest ih =>
    obtain ⟨d, ss₀⟩ := p
    by_cases hd : d = dest
    · subst hd
      simp only [addEdge, if_pos rfl] at h
      rcases List.mem_cons.1 h with heq | htl
      · injection heq with h1 h2
        subst h1; subst h2
        exact Or.inr (Or.inr ⟨rfl, ss₀, List.mem_cons_self _ _, rfl⟩)
      · exact Or.inl (List.mem_cons_of_mem _ htl)
    · simp only [addEdge, if_neg hd, List.mem_cons] at h
      rcases h with h | h
      · exact Or.inl (List.mem_cons.2 (Or.inl h))
      · rcases ih h with h' | h' | ⟨rfl, ss₁, hss₁, rfl⟩
        · exact Or.inl (List.mem_cons_of_mem _ h')
        · exact Or.inr (Or.inl h')
        · exact Or.inr (Or.inr ⟨rfl, ss₁, List.mem_cons_of_mem _ hss₁, rfl⟩)

theorem addEdge_adds (edges : List (String × List String)) (dest src : String) :
    ∃ ss, (dest, ss) ∈ addEdge edges dest src ∧ src ∈ ss := by
  induction edges with
  | nil => exact ⟨[src], List.mem_singleton_self _, List.mem_singleton_self _⟩
  | cons p rest ih =>
    obtain ⟨d, ss₀⟩ := p
    by_cases hd : d = dest
    · subst hd
      exact ⟨ss₀ ++ [src], by simp [addEdge], by simp⟩
    · obtain ⟨ss, hmem, hsrc⟩ := ih
      exact ⟨ss, by simp only [addEdge, if_neg hd]; exact List.mem_cons_of_mem _ hmem, hsrc⟩

theorem addEdge_mono {edges : List (String × List String)} {x : String}
    {ss : List String} (dest src : String) (h : (x, ss) ∈ edges) :
    ∃ ss', (x, ss') ∈ addEdge edges dest src ∧ ss ⊆ ss' := by
  induction edges with
  | nil => cases h
  | cons p rest ih =>
    obtain ⟨d, ss₀⟩ := p
    by_cases hd : d = dest
    · subst hd
      rcases List.mem_cons.1 h with heq | htl
      · injection heq with h1 h2
        subst h1; subst h2
        exact ⟨ss ++ [src], by simp [addEdge], List.subset_append_left _ _⟩
      · exact ⟨ss, by simp only [addEdge, if_pos rfl]; exact List.mem_cons_of_mem _ htl,
          List.Subset.refl _⟩
    · rcases List.mem_cons.1 h with heq | htl
      · exact ⟨ss, by simp only [addEdge, if_neg hd]; exact List.mem_cons.2 (Or.inl heq),
          List.Subset.refl _⟩
      · obtain ⟨ss', hmem, hsub⟩ := ih htl
        exact ⟨ss', by simp only [addEdge, if_neg hd]; exact List.mem_cons_of_mem _ hmem,
          hsub⟩

/-- Structural invariants of the edge map built by `check_cycles`: unique
destinations, nonempty source lists, and both endpoints drawn from the
catalog names. -/
theorem build_edges_basic (reg : Registry) :
    ∀ imgs acc E, build_edges reg imgs acc = Except.ok E →
    (∀ i ∈ imgs, i ∈ reg.images) →
    (keysOf acc).Nodup →
    (∀ d ss, (d, ss) ∈ acc → ss ≠ [] ∧ d ∈ reg.images.map Image.name ∧
      ∀ s ∈ ss, s ∈ reg.images.map Image.name) →
    (keysOf E).Nodup ∧
      ∀ d ss, (d, ss) ∈ E → ss ≠ [] ∧ d ∈ reg.images.map Image.name ∧
        ∀ s ∈ ss, s ∈ reg.images.map Image.name := by
  intro imgs
  induction imgs with
  | nil =>
    intro acc E hE hsub hnd hprop
    simp only [build_edges] at hE
    injection hE with hE
    exact hE ▸ ⟨hnd, hprop⟩
  | cons img rest ih =>
    intro acc E hE hsub hnd hprop
    have hrest : ∀ i ∈ rest, i ∈ reg.images :=
      fun i hi => hsub i (List.mem_cons_of_mem _ hi)
    simp only [build_edges] at hE
    cases hbv : (Image.base_with_version img).1 with
    | none =>
      rw [hbv] at hE
      exact ih acc E hE hrest hnd hprop
    | some bn =>
      rw [hbv] at hE
      simp only at hE
      by_cases hart : (lookupKV reg.artifacts bn).isSome
      · rw [if_pos hart] at hE
        exact ih acc E hE hrest hnd hprop
      · rw [if_neg hart] at hE
        cases hgi : reg.get_image_opt bn with
        | none => rw [hgi] at hE; cases hE
        | some bimg =>
          rw [hgi] at hE
          simp only at hE
          obtain ⟨hbname, hbmem⟩ := get_image_opt_name hgi
          refine ih _ E hE hrest (keysOf_addEdge_nodup hnd) ?_
          intro d ss hmem
          rcases mem_addEdge hmem with hold | ⟨rfl, rfl⟩ | ⟨rfl, ss₀, hss₀, rfl⟩
          · exact hprop d ss hold
          · refine ⟨by simp, ?_, ?_⟩
            · exact hbname ▸ List.mem_map_of_mem Image.name hbmem
            · intro s hs
              rw [List.mem_singleton] at hs
              subst hs
              exact List.mem_map_of_mem Image.name (hsub img (List.mem_cons_self _ _))
          · obtain ⟨hne, hd, hss⟩ := hprop _ ss₀ hss₀
            refine ⟨by simp, hd, ?_⟩
            intro s hs
            rcases List.mem_append.1 hs with hs | hs
            · exact hss s hs
            · rw [List.mem_singleton] at hs
              subst hs
              exact List.mem_map_of_mem Image.name (hsub img (List.mem_cons_self _ _))

/-- A rank function on the catalog that decreases along `image → base`
dependencies decreases along every edge built by `check_cycles`. -/
theorem build_edges_rank (reg : Registry) (rank : String → Nat)
    (hcat : ∀ img ∈ reg.images, ∀ bn bv,
      Image.base_with_version img = (some bn, bv) →
      lookupKV reg.artifacts bn = Option.none → rank img.name < rank bn) :
    ∀ imgs acc E, build_edges reg imgs acc = Except.ok E →
    (∀ i ∈ imgs, i ∈ reg.images) →
    (∀ d ss, (d, ss) ∈ acc → ∀ s ∈ ss, rank s < rank d) →
    ∀ d ss, (d, ss) ∈ E → ∀ s ∈ ss, rank s < rank d := by
  intro imgs
  induction imgs with
  | nil =>
    intro acc E hE hsub hprop
    simp only [build_edges] at hE
    injection hE with hE
    exact hE ▸ hprop
  | cons img rest ih =>
    intro acc E hE hsub hprop
    have hrest : ∀ i ∈ rest, i ∈ reg.images :=
      fun i hi => hsub i (List.mem_cons_of_mem _ hi)
    simp only [build_edges] at hE
    cases hbv : (Image.base_with_version img).1 with
    | none =>
      rw [hbv] at hE
      exact ih acc E hE hrest hprop
    | some bn =>
      rw [hbv] at hE
      simp only at hE
      by_cases hart : (lookupKV reg.artifacts bn).isSome
      · rw [if_pos hart] at hE
        exact ih acc E hE hrest hprop
      · rw [if_neg hart] at hE
        cases hgi : reg.get_image_opt bn with
        | none => rw [hgi] at hE; cases hE
        | some bimg =>
          rw [hgi] at hE
          simp only at hE
          obtain ⟨hbname, _⟩ := get_image_opt_name hgi
          have hnone : lookupKV reg.artifacts bn = Option.none := by
            cases hl : lookupKV reg.artifacts bn
            · rfl
            · rw [hl] at hart; simp at hart
          have hstep : rank img.name < rank bn :=
            hcat img (hsub img (List.mem_cons_self _ _)) bn
              (Image.base_with_version img).2 (by rw [← hbv]) hnone
          refine ih _ E hE hrest ?_
          intro d ss hmem s hs
          rcases mem_addEdge hmem with hold | ⟨rfl, rfl⟩ | ⟨rfl, ss₀, hss₀, rfl⟩
          · exact hprop d ss hold s hs
          · rw [List.mem_singleton] at hs
            subst hs
            exact hbname ▸ hstep
          · rcases List.mem_append.1 hs with hs | hs
            · exact hprop _ ss₀ hss₀ s hs
            · rw [List.mem_singleton] at hs
              subst hs
              exact hbname ▸ hstep

/-- Edges recorded in the accumulator survive (with at least the same
sources) into the final edge map. -/
theorem build_edges_mono (reg : Registry) :
    ∀ imgs acc E, build_edges reg imgs acc = Except.ok E →
    ∀ x ss, (x, ss) ∈ acc → ∃ ss', (x, ss') ∈ E ∧ ss ⊆ ss' := by
  intro imgs
  induction imgs with
  | nil =>
    intro acc E hE x ss hmem
    simp only [build_edges] at hE
    injection hE with hE
    exact ⟨ss, hE ▸ hmem, List.Subset.refl _⟩
  | cons img rest ih =>
    intro acc E hE x ss hmem
    simp only [build_edges] at hE
    cases hbv : (Image.base_with_version img).1 with
    | none =>
      rw [hbv] at hE
      exact ih acc E hE x ss hmem
    | some bn =>
      rw [hbv] at hE
      simp only at hE
      by_cases hart : (lookupKV reg.artifacts bn).isSome
      · rw [if_pos hart] at hE
        exact ih acc E hE x ss hmem
      · rw [if_neg hart] at hE
        cases hgi : reg.get_image_opt bn with
        | none => rw [hgi] at hE; cases hE
        | some bimg =>
          rw [hgi] at hE
          simp only at hE
          obtain ⟨ss₁, hmem₁, hsub₁⟩ := addEdge_mono bimg.name img.name hmem
          obtain ⟨ss₂, hmem₂, hsub₂⟩ := ih _ E hE x ss₁ hmem₁
          exact ⟨ss₂, hmem₂, hsub₁.trans hsub₂⟩

/-- Every catalog dependency on a non-pre-registered base is recorded in
the final edge map. -/
theorem build_edges_complete (reg : Registry) :
    ∀ imgs acc E, build_edges reg imgs acc = Except.ok E →
    ∀ img ∈ imgs, ∀ bn,
      (Image.base_with_version img).1 = some bn →
      (lookupKV reg.artifacts bn).isSome = false →
      ∃ ss, (bn, ss) ∈ E ∧ img.name ∈ ss := by
  intro imgs
  induction imgs with
  | nil =>
    intro acc E _ img hmem
    cases hmem
  | cons img₀ rest ih =>
    intro acc E hE img hmem bn hbn hart
    simp only [build_edges] at hE
    rcases List.mem_cons.1 hmem with rfl | hmem'
    · rw [hbn] at hE
      simp only at hE
      rw [if_neg (by rw [hart]; simp)] at hE
      cases hgi : reg.get_image_opt bn with
      | none => rw [hgi] at hE; cases hE
      | some bimg =>
        rw [hgi] at hE
        simp only at hE
        obtain ⟨hbname, _⟩ := get_image_opt_name hgi
        obtain ⟨ss, hmem₁, hsrc₁⟩ := addEdge_adds acc bimg.name img.name
        obtain ⟨ss', hmem₂, hsub₂⟩ := build_edges_mono reg rest _ E hE _ ss hmem₁
        exact ⟨ss', hbname ▸ hmem₂, hsub₂ hsrc₁⟩
    · cases hbv : (Image.base_with_version img₀).1 with
      | none =>
        rw [hbv] at hE
        exact ih acc E hE img hmem' bn hbn hart
      | some bn₀ =>
        rw [hbv] at hE
        simp only at hE
        by_cases hart₀ : (lookupKV reg.artifacts bn₀).isSome
        · rw [if_pos hart₀] at hE
          exact ih acc E hE img hmem' bn hbn hart
        · rw [if_neg hart₀] at hE
          cases hgi : reg.get_image_opt bn₀ with
          | none => rw [hgi] at hE; cases hE
          | some bimg =>
            rw [hgi] at hE
            simp only at hE
            exact ih _ E hE img hmem' bn hbn hart

/-- Acyclicity of the image dependency graph that `check_cycles` examines:
a rank strictly decreasing from each image to its base, for bases that are
not satisfied by a pre-registered artifact.  For finite graphs this is
exactly the absence of dependency cycles. -/
def AcyclicCatalog (reg : Registry) : Prop :=
  ∃ rank : String → Nat, ∀ img ∈ reg.images, ∀ bn bv,
    Image.base_with_version img = (some bn, bv) →
    lookupKV reg.artifacts bn = Option.none →
    rank img.name < rank bn

/-- When every base resolves (catalog image or pre-registered artifact),
the edge-construction loop never raises. -/
theorem build_edges_ok (reg : Registry)
    (hresolve : ∀ img ∈ reg.images, ∀ bn,
      (Image.base_with_version img).1 = some bn →
      (lookupKV reg.artifacts bn).isSome = false →
      (reg.get_image_opt bn).isSome) :
    ∀ imgs acc, (∀ i ∈ imgs, i ∈ reg.images) →
    ∃ E, build_edges reg imgs acc = Except.ok E := by
  intro imgs
  induction imgs with
  | nil => intro acc _; exact ⟨acc, rfl⟩
  | cons img rest ih =>
    intro acc hsub
    have hrest : ∀ i ∈ rest, i ∈ reg.images :=
      fun i hi => hsub i (List.mem_cons_of_mem _ hi)
    simp only [build_edges]
    cases hbv : (Image.base_with_version img).1 with
    | none => exact ih acc hrest
    | some bn =>
      simp only
      by_cases hart : (lookupKV reg.artifacts bn).isSome
      · rw [if_pos hart]
        exact ih acc hrest
      · rw [if_neg hart]
        have := hresolve img (hsub img (List.mem_cons_self _ _)) bn hbv
          (by simpa using hart)
        cases hgi : reg.get_image_opt bn with
        | none => rw [hgi] at this; cases this
        | some bimg =>
          simp only
          exact ih _ hrest

theorem keysOf_mem_names {reg : Registry} {E : List (String × List String)}
    (hbasic : ∀ d ss, (d, ss) ∈ E → ss ≠ [] ∧ d ∈ reg.images.map Image.name ∧
      ∀ s ∈ ss, s ∈ reg.images.map Image.name) :
    ∀ x ∈ keysOf E, x ∈ reg.images.map Image.name := by
  intro x hx
  obtain ⟨p, hp, rfl⟩ := List.mem_map.1 hx
  exact (hbasic p.1 p.2 hp).2.1

/-- C3 (amended): on a catalog whose bases all resolve, `check_cycles`
succeeds without raising, but returns Python `None` — the level sequence
computed by the underlying `topological_sort` is discarded.  That internal
sort is a valid topological level sequence (every image appears exactly
once; each edge's destination lies in a strictly later level than all of
its sources), and on a cyclic graph `topological_sort` fails with the
nonempty residual edge set (each residual entry a sub-edge of the graph),
surfaced by `check_cycles` as a `ConfigurationError`. -/
theorem check_cycles_spec (reg : Registry)
    (hnodup : (reg.images.map Image.name).Nodup)
    (hresolve : ∀ img ∈ reg.images, ∀ bn,
      (Image.base_with_version img).1 = some bn →
      (lookupKV reg.artifacts bn).isSome = false →
      (reg.get_image_opt bn).isSome) :
    ∃ E, build_edges reg reg.images [] = Except.ok E ∧
      (AcyclicCatalog reg →
        check_cycles reg = Except.ok Option.none ∧
        ∃ levels,
          topological_sort (reg.images.map Image.name) E = Except.ok levels ∧
          levels.flatten.Perm (reg.images.map Image.name) ∧
          levels.flatten.Nodup ∧
          (∀ d ss, (d, ss) ∈ E → ∀ s ∈ ss, ∀ k,
            d ∈ levels.getD k [] → ∃ j, j < k ∧ s ∈ levels.getD j [])) ∧
      (¬ AcyclicCatalog reg →
        ∃ r, topological_sort (reg.images.map Image.name) E = Except.error r ∧
          r ≠ [] ∧
          (∀ p ∈ r, ∃ ss₀, (p.1, ss₀) ∈ E ∧ p.2 ⊆ ss₀) ∧
          ∃ msg, check_cycles reg = Except.error (.shelver (.config msg))) := by
  obtain ⟨E, hE⟩ := build_edges_ok reg hresolve reg.images [] (fun i hi => hi)
  obtain ⟨hkeys, hbasic⟩ := build_edges_basic reg reg.images [] E hE
    (fun i hi => hi) (by simp [keysOf]) (by intro d ss h; cases h)
  refine ⟨E, hE, ?_, ?_⟩
  · rintro ⟨rank, hrank⟩
    have hErank : ∀ d ss, (d, ss) ∈ E → ∀ s ∈ ss, rank s < rank d :=
      build_edges_rank reg rank hrank reg.images [] E hE (fun i hi => hi)
        (by intro d ss h; cases h)
    obtain ⟨levels, hok⟩ := topological_sort_success (reg.images.map Image.name)
      E rank (fun d ss h => (hbasic d ss h).1)
      (fun d ss h s hs => (hbasic d ss h).2.2 s hs) hErank
    have hperm := topological_sort_perm _ E levels hok hnodup hkeys
      (keysOf_mem_names hbasic)
    refine ⟨?_, levels, hok, hperm, (hperm.nodup_iff).2 hnodup, ?_⟩
    · simp only [check_cycles, hE, Except.bind, bind, hok]
      rfl
    · obtain ⟨hres, hlev⟩ := (topological_sort_ok_iff _ E levels).1 hok
      intro d ss hmem s hs k hd
      have hdisj : ∀ x ∈ (reg.images.map Image.name).filter
          (fun n => decide (n ∉ keysOf E)), x ∉ keysOf E := by
        intro x hx
        have := (List.mem_filter.1 hx).2
        simpa using this
      have := sortLoop_dep E
        ((reg.images.map Image.name).filter (fun n => decide (n ∉ keysOf E)))
        hkeys hdisj d ss hmem s hs k (by rw [hlev]; exact hd)
      obtain ⟨j, hj, hsm⟩ := this
      exact ⟨j, hj, by rw [← hlev]; exact hsm⟩
  · intro hnac
    cases htop : topological_sort (reg.images.map Image.name) E with
    | ok levels =>
      exfalso
      refine hnac ⟨firstLevel levels, ?_⟩
      intro img himg bn bv hbv hart
      obtain ⟨ss, hss, hsrc⟩ := build_edges_complete reg reg.images [] E hE img
        himg bn (by rw [hbv]) (by rw [hart]; rfl)
      exact topological_sort_rank _ E levels htop hnodup hkeys
        (keysOf_mem_names hbasic) bn ss hss img.name hsrc
    | error r =>
      obtain ⟨hres, hne⟩ := (topological_sort_error_iff _ E r).1 htop
      refine ⟨r, rfl, hne, ?_, ?_⟩
      · intro p hp
        exact sortLoop_residual E _ p (by rw [hres]; exact hp)
      · refine ⟨"Image dependency graph contains cycles: " ++
          String.intercalate ", " (r.map (fun _ => " <- ")), ?_⟩
        simp only [check_cycles, hE, Except.bind, bind, htop]
        rfl

/-- Demo catalog: `fedora` (no base) and `server` (base `fedora`), no
pre-registered artifacts — acyclic, with all bases resolving. -/
def fedoraImg : Image :=
  { name := "fedora", current_version := "25", base := Option.none }

def serverImg : Image :=
  { name := "server", current_version := "2", base := some "fedora" }

def demoReg : Registry :=
  { images := [fedoraImg, serverImg], artifacts := [], versions := [] }

theorem demo_build_edges :
    build_edges demoReg demoReg.images [] =
      Except.ok [("fedora", ["server"])] := by
  rfl

theorem demo_sortLoop :
    sortLoop [("fedora", ["server"])] ["server"] =
      ([["server"], ["fedora"]], []) := by
  have h1 : liveEdges (removeLeaves ["server"] [("fedora", ["server"])]) =
      [] := rfl
  have h2 : nextLeaves (removeLeaves ["server"] [("fedora", ["server"])]) =
      ["fedora"] := rfl
  rw [sortLoop_cons, h1, h2]
  have h3 : liveEdges (removeLeaves ["fedora"]
      ([] : List (String × List String))) = [] := rfl
  have h4 : nextLeaves (removeLeaves ["fedora"]
      ([] : List (String × List String))) = [] := rfl
  rw [sortLoop_cons, h3, h4, sortLoop_nil]

/-- C3 counterexample: on a concrete acyclic two-image catalog,
`check_cycles` returns Python `None` — not a topological level sequence —
even though the `topological_sort` it ran internally produced the valid
level sequence `[[server], [fedora]]`. -/
theorem check_cycles_returns_none :
    check_cycles demoReg = Except.ok Option.none ∧
    topological_sort ["fedora", "server"] [("fedora", ["server"])] =
      Except.ok [["server"], ["fedora"]] := by
  have htop : topological_sort ["fedora", "server"] [("fedora", ["server"])] =
      Except.ok [["server"], ["fedora"]] := by
    have hleaves : List.filter
        (fun n => decide (n ∉ keysOf [("fedora", ["server"])]))
        ["fedora", "server"] = ["server"] := rfl
    simp only [topological_sort]
    rw [hleaves, demo_sortLoop]
    rfl
  refine ⟨?_, htop⟩
  have hnames : demoReg.images.map Image.name = ["fedora", "server"] := rfl
  simp only [check_cycles, demo_build_edges, Except.bind, bind, hnames, htop]
  rfl

/-- Witness for the amended C3 at the concrete demo catalog. -/
theorem check_cycles_spec_witness :
    check_cycles demoReg = Except.ok Option.none := by
  have hnodup : (demoReg.images.map Image.name).Nodup := by decide
  have hresolve : ∀ img ∈ demoReg.images, ∀ bn,
      (Image.base_with_version img).1 = some bn →
      (lookupKV demoReg.artifacts bn).isSome = false →
      (demoReg.get_image_opt bn).isSome := by
    intro img himg bn heq _
    simp only [demoReg, List.mem_cons, List.not_mem_nil, or_false] at himg
    rcases himg with rfl | rfl
    · rw [show (Image.base_with_version fedoraImg).1 = Option.none from rfl] at heq
      cases heq
    · rw [show (Image.base_with_version serverImg).1 = some "fedora" from rfl] at heq
      have hbn : bn = "fedora" := (Option.some.inj heq).symm
      subst hbn
      rfl
  have hac : AcyclicCatalog demoReg := by
    refine ⟨fun n => if n = "fedora" then 1 else 0, ?_⟩
    intro img himg bn bv heq _
    simp only [demoReg, List.mem_cons, List.not_mem_nil, or_false] at himg
    rcases himg with rfl | rfl
    · rw [show Image.base_with_version fedoraImg =
        (Option.none, Option.none) from rfl] at heq
      cases heq
    · rw [show Image.base_with_version serverImg =
        (some "fedora", Option.none) from rfl] at heq
      have h1 : some "fedora" = some bn := congrArg Prod.fst heq
      have hbn : bn = "fedora" := (Option.some.inj h1).symm
      subst hbn
      simp [serverImg]
  obtain ⟨E, hE, hsucc, _⟩ := check_cycles_spec demoReg hnodup hresolve
  exact (hsucc hac).1

/-- A value stored in a parsed artifact entry: either one string or the
list of remaining DATA fields. -/
inductive ArtVal where
  | s : String → ArtVal
  | l : List String → ArtVal
  deriving DecidableEq, Repr

/-- A parsed artifact entry, a Python dict in insertion order. -/
abbrev ArtDict := List (String × ArtVal)

/-- Watcher state (shelver/build/watcher.py): accumulated `errors`,
`artifacts`, and the lines handed to `write_message` (terminal colouring
and the prefix are presentation I/O and are not modelled beyond the
target-prefixing done in `handle_stdout` itself). -/
structure WState where
  errors : List String
  artifacts : List ArtDict
  messages : List String
  deriving DecidableEq, Repr

def WState.init : WState := { errors := [], artifacts := [], messages := [] }

/-- Python `bytes.rstrip()`: drop trailing whitespace. -/
def pyRstrip (s : String) : String :=
  String.mk (s.toList.reverse.dropWhile Char.isWhitespace).reverse

/-- `data.replace(b'%!(PACKER_COMMA)', b',')`: restore the embedded commas
the builder tool escapes in machine-readable output. -/
def unpackComma : List Char → List Char
  | '%' :: '!' :: '(' :: 'P' :: 'A' :: 'C' :: 'K' :: 'E' :: 'R' :: '_' ::
      'C' :: 'O' :: 'M' :: 'M' :: 'A' :: ')' :: rest => ',' :: unpackComma rest
  | c :: cs => c :: unpackComma cs
  | [] => []

def pyUnpackComma (s : String) : String := String.mk (unpackComma s.toList)

/-- `Watcher._parse_line`: split the stripped line on the first three
commas; lines that do not yield all four of TIMESTAMP, TARGET, TYPE and
DATA parse as `(None, None, None)`; embedded commas are restored in
DATA. -/
def _parse_line (line : String) : Option (String × String × String) :=
  match pySplit (pyRstrip line) ',' (some 3) with
  | [_, target, type_, data] => some (target, type_, pyUnpackComma data)
  | _ => Option.none

def digitsValAux : Nat → List Char → Option Nat
  | acc, [] => some acc
  | acc, c :: cs =>
    if c.isDigit then digitsValAux (acc * 10 + (c.toNat - 48)) cs
    else Option.none

def digitsVal (ds : List Char) : Option Nat :=
  if ds.isEmpty then Option.none else digitsValAux 0 ds

/-- Python `int(s)`: strip whitespace, accept an optional sign followed by
decimal digits, raise `ValueError` (here: `Option.none`) otherwise. -/
def pyInt (s : String) : Option Int :=
  let cs := s.toList.dropWhile Char.isWhitespace
  let cs := (cs.reverse.dropWhile Char.isWhitespace).reverse
  match cs with
  | '-' :: ds => (digitsVal ds).map (fun n => -(n : Int))
  | '+' :: ds => (digitsVal ds).map (fun n => (n : Int))
  | ds => (digitsVal ds).map (fun n => (n : Int))

/-- The `while i >= len(self.artifacts): self.artifacts.append({})` loop:
extend the artifact list with empty dicts until the index is in range (a
negative index never extends). -/
def extendTo (arts : List ArtDict) (i : Int) : List ArtDict :=
  if (arts.length : Int) ≤ i then
    arts ++ List.replicate (i.toNat + 1 - arts.length) []
  else arts

/-- Python list indexing: negative indexes count from the end; out of
range raises `IndexError`. -/
def pyIndex (len : Nat) (i : Int) : Except PyErr Nat :=
  if 0 ≤ i then
    if i.toNat < len then Except.ok i.toNat
    else Except.error (.indexError "list index out of range")
  else
    if 0 ≤ (len : Int) + i then Except.ok ((len : Int) + i).toNat
    else Except.error (.indexError "list index out of range")

/-- Python `d[k] = v` on an insertion-ordered dict: update in place, or
append a new binding. -/
def dictSet (d : ArtDict) (k : String) (v : ArtVal) : ArtDict :=
  match d with
  | [] => [(k, v)]
  | (k', v') :: rest => if k' = k then (k', v) :: rest else (k', v') :: dictSet rest k v

/-- The `artifact` branch of `Watcher.handle_stdout`, after
`data.split(',')`: `INDEX, KEY, VALUE...` destructuring (fewer than two
fields raises `ValueError`), index extension and selection, then the
special `id` (split `REGION:ARTIFACT_ID` on the first colon) and `end`
(ignored) keys, with other keys storing the single value or the value
list. -/
def artifact_fields (st : WState) (fields : List String) : Except PyErr WState :=
  match fields with
  | istr :: data_key :: data_val =>
    match pyInt istr with
    | Option.none => Except.error (.valueError "invalid literal for int()")
    | some i =>
      let arts := extendTo st.artifacts i
      match pyIndex arts.length i with
      | Except.error e => Except.error e
      | Except.ok idx =>
        let artifact := arts.getD idx []
        if data_key = "id" then
          match data_val with
          | [] => Except.error (.indexError "list index out of range")
          | v :: _ =>
            match pySplit v ':' (some 1) with
            | [region, artifact_id] =>
                Except.ok { st with artifacts := (arts.set idx
                  (dictSet (dictSet artifact "region" (.s region)) "id"
                    (.s artifact_id))) }
            | _ => Except.error (.valueError "not enough values to unpack")
        else if data_key = "end" then
          Except.ok { st with artifacts := arts }
        else if data_val.length = 1 then
          Except.ok { st with artifacts := (arts.set idx
            (dictSet artifact data_key (.s (data_val.headD "")))) }
        else
          Except.ok { st with artifacts := (arts.set idx
            (dictSet artifact data_key (.l data_val))) }
  | _ => Except.error (.valueError "not enough values to unpack")

def artifact_step (st : WState) (data : String) : Except PyErr WState :=
  artifact_fields st (pySplit data ',' Option.none)

/-- One iteration of `Watcher.handle_stdout`: unparseable lines are
forwarded verbatim; `ui` DATA is forwarded after target prefixing;
`error` DATA is appended to the error list; `artifact` DATA updates the
artifact list; any other type is silently dropped by the source (none of
the `if` arms match and the loop continues). -/
def handle_line (st : WState) (line : String) : Except PyErr WState :=
  match _parse_line line with
  | Option.none => Except.ok { st with messages := st.messages ++ [line] }
  | some (target, type_, data) =>
    if type_ = "ui" then
      let msg := (pySplit data ',' (some 1)).getLastD ""
      let msg := if target ≠ "" then target ++ ": " ++ msg else msg
      Except.ok { st with messages := st.messages ++ [msg] }
    else if type_ = "error" then
      Except.ok { st with errors := st.errors ++ [data] }
    else if type_ = "artifact" then
      artifact_step st data
    else
      Except.ok st

/-- `Watcher.handle_stdout`: read lines until the stream ends, handling
each; an exception inside a line handler escapes (the source has no
try/except around the loop body). -/
def handle_stdout (st : WState) : List String → Except PyErr WState
  | [] => Except.ok st
  | line :: rest =>
    match handle_line st line with
    | Except.ok st' => handle_stdout st' rest
    | Except.error e => Except.error e

/-- `Watcher.handle_stderr`: every line is forwarded to the human output
stream. -/
def handle_stderr (st : WState) : List String → WState
  | [] => st
  | line :: rest => handle_stderr { st with messages := st.messages ++ [line] } rest

/-- Outcome of `Watcher.run`: a `PackerError` with exit code and error
list, or an exception escaping the pipe handlers. -/
inductive RunErr where
  | packer : Int → List String → RunErr
  | crash : PyErr → RunErr
  deriving DecidableEq, Repr

/-- `Watcher.run` on the non-cancellation path: consume both pipes, wait
for the exit code, then raise `PackerError(ret, errors)` when `ret != 0`
and return the artifact list otherwise.  (The cancellation paths send
signals and re-await; they do not change the exit-code logic.) -/
def watcher_run (stdout stderr : List String) (ret : Int) :
    Except RunErr (List ArtDict) :=
  match handle_stdout WState.init stdout with
  | Except.error e => Except.error (.crash e)
  | Except.ok st1 =>
    let st2 := handle_stderr st1 stderr
    if ret ≠ 0 then Except.error (.packer ret st2.errors)
    else Except.ok st2.artifacts

theorem handle_stderr_preserves (lines : List String) :
    ∀ st : WState, (handle_stderr st lines).errors = st.errors ∧
      (handle_stderr st lines).artifacts = st.artifacts := by
  induction lines with
  | nil => intro st; exact ⟨rfl, rfl⟩
  | cons l rest ih => intro st; exact ih _

/-- C4: whenever stdout parsing completes (accumulating state `st`), a
zero exit code makes `Watcher.run` return the accumulated artifact list,
and any non-zero exit code makes it fail with a `PackerError` carrying
exactly that exit code and the accumulated error list. -/
theorem watcher_run_exit (stdout stderr : List String) (ret : Int) (st : WState)
    (h : handle_stdout WState.init stdout = Except.ok st) :
    (ret = 0 → watcher_run stdout stderr ret = Except.ok st.artifacts) ∧
    (ret ≠ 0 → watcher_run stdout stderr ret =
      Except.error (.packer ret st.errors)) := by
  obtain ⟨herr, hart⟩ := handle_stderr_preserves stderr st
  constructor
  · intro hret
    subst hret
    simp [watcher_run, h, hart]
  · intro hret
    simp [watcher_run, h, hret, herr]

/-- Witness for C4 at a concrete error line and exit code 1. -/
theorem watcher_run_exit_witness :
    watcher_run ["1000,,error,boom"] [] 1 =
      Except.error (.packer 1 ["boom"]) ∧
    watcher_run ["1000,,error,boom"] [] 0 = Except.ok [] :=
  ⟨(watcher_run_exit ["1000,,error,boom"] [] 1
      { errors := ["boom"], artifacts := [], messages := [] } rfl).2
      (by decide),
   (watcher_run_exit ["1000,,error,boom"] [] 0
      { errors := ["boom"], artifacts := [], messages := [] } rfl).1 rfl⟩

theorem string_mk_toList (s : String) : String.mk s.toList = s := rfl

theorem pySplitAux_zero (sep : Char) (acc rest : List Char) :
    pySplitAux sep (some 0) acc rest = [acc.reverse ++ rest] := by
  cases rest with
  | nil => simp [pySplitAux]
  | cons c cs => rfl

theorem pySplitAux_one (sep : Char) (b : List Char) :
    ∀ a, sep ∉ a → ∀ acc,
      pySplitAux sep (some 1) acc (a ++ sep :: b) = [acc.reverse ++ a, b] := by
  intro a
  induction a with
  | nil =>
    intro _ acc
    simp [pySplitAux, pySplitAux_zero, Option.map]
  | cons c a' ih =>
    intro ha acc
    have hc : ¬(c = sep) := fun h => ha (h ▸ List.mem_cons_self c a')
    have ha' : sep ∉ a' := fun h => ha (List.mem_cons_of_mem c h)
    simp only [List.cons_append, pySplitAux, if_neg hc, List.append_eq]
    rw [ih ha' (c :: acc)]
    simp

/-- Splitting `a ++ sep ++ b` with `maxsplit=1` on the first separator
occurrence yields exactly `[a, b]`. -/
theorem pySplit_first_sep (a b : String) (sep : Char) (ha : sep ∉ a.toList) :
    pySplit (a ++ String.mk [sep] ++ b) sep (some 1) = [a, b] := by
  unfold pySplit
  have htl : (a ++ String.mk [sep] ++ b).toList = a.toList ++ sep :: b.toList := by
    show (a ++ String.mk [sep] ++ b).data = a.data ++ sep :: b.data
    simp [String.data_append]
  rw [htl, pySplitAux_one sep b.toList a.toList ha []]
  simp [string_mk_toList]

theorem extendTo_length (arts : List ArtDict) (i : Nat) :
    (extendTo arts ((i : Int))).length = max arts.length (i + 1) := by
  simp only [extendTo]
  split <;> rename_i h
  · simp only [List.length_append, List.length_replicate]
    omega
  · omega

theorem pyIndex_extendTo (arts : List ArtDict) (i : Nat) :
    pyIndex (extendTo arts ((i : Int))).length ((i : Int)) = Except.ok i := by
  have hlen := extendTo_length arts i
  simp only [pyIndex, hlen]
  rw [if_pos (by omega), if_pos (by omega)]
  simp

/-- C9: an `artifact` stdout line's INDEX selects or creates the entry at
that position, with the artifact list extended by empty dicts as needed;
the key `id` splits its `REGION:ARTIFACT_ID` value on the first colon into
the entry's `region` and `id` fields; the key `end` leaves the entry
untouched; any other key stores the single value, or the list of values
when there is not exactly one.  In particular the two lines
`1000,,artifact,0,id,us-east-1:ami-abc` and `1000,,artifact,0,end` make
the Watcher return `[{region: us-east-1, id: ami-abc}]`. -/
theorem artifact_line_spec :
    (∀ st : WState, ∀ istr : String, ∀ i : Nat, ∀ key : String,
      ∀ vals : List String, pyInt istr = some ((i : Int)) →
      (∀ v vrest region aid, key = "id" → vals = v :: vrest →
        v = region ++ ":" ++ aid → ':' ∉ region.toList →
        artifact_fields st (istr :: key :: vals) = Except.ok { st with
          artifacts := ((extendTo st.artifacts ((i : Int))).set i
            (dictSet (dictSet ((extendTo st.artifacts ((i : Int))).getD i [])
              "region" (.s region)) "id" (.s aid))) }) ∧
      (key = "end" → artifact_fields st (istr :: key :: vals) =
        Except.ok { st with artifacts := extendTo st.artifacts ((i : Int)) }) ∧
      (key ≠ "id" → key ≠ "end" → ∀ v, vals = [v] →
        artifact_fields st (istr :: key :: vals) = Except.ok { st with
          artifacts := ((extendTo st.artifacts ((i : Int))).set i
            (dictSet ((extendTo st.artifacts ((i : Int))).getD i [])
              key (.s v))) }) ∧
      (key ≠ "id" → key ≠ "end" → vals.length ≠ 1 →
        artifact_fields st (istr :: key :: vals) = Except.ok { st with
          artifacts := ((extendTo st.artifacts ((i : Int))).set i
            (dictSet ((extendTo st.artifacts ((i : Int))).getD i [])
              key (.l vals))) })) ∧
    watcher_run ["1000,,artifact,0,id,us-east-1:ami-abc",
        "1000,,artifact,0,end"] [] 0 =
      Except.ok [[("region", ArtVal.s "us-east-1"), ("id", ArtVal.s "ami-abc")]] := by
  constructor
  · intro st istr i key vals hint
    refine ⟨?_, ?_, ?_, ?_⟩
    · rintro v vrest region aid rfl rfl rfl hreg
      have hsplit : pySplit (region ++ ":" ++ aid) ':' (some 1) = [region, aid] :=
        pySplit_first_sep region aid ':' hreg
      simp only [artifact_fields, hint, pyIndex_extendTo, hsplit]
      rfl
    · rintro rfl
      simp only [artifact_fields, hint, pyIndex_extendTo]
      rfl
    · rintro hid hend v rfl
      simp only [artifact_fields, hint, pyIndex_extendTo, if_neg hid, if_neg hend]
      simp
    · intro hid hend hlen
      simp only [artifact_fields, hint, pyIndex_extendTo, if_neg hid, if_neg hend,
        if_neg hlen]
  · rfl

/-- Witness for C9's general part at index 0 and key `end`. -/
theorem artifact_line_spec_witness :
    artifact_fields WState.init ["0", "end"] = Except.ok { WState.init with
      artifacts := extendTo WState.init.artifacts (Int.ofNat 0) } ∧
    extendTo WState.init.artifacts (Int.ofNat 0) = [[]] :=
  ⟨((artifact_line_spec.1 WState.init "0" 0 "end" [] (by decide)).2.1) rfl, rfl⟩

mutual

/-- `Builder.process_template` (shelver/build/builder.py).  `render` is the
external Jinja template engine applied with the build context (out of the
core's scope), `lit` is `ast.literal_eval` returning `none` on
`SyntaxError`/`ValueError`.  Mappings recurse into a plain `dict`; any
other `is_collection` value (sequence or set) recurses into a plain
`list`; strings are rendered and then literal-parsed, keeping the rendered
string on parse failure.  A value matching none of these branches — a
non-string scalar such as an int, bool or None — falls off the end of the
Python function, which therefore returns `None`. -/
def process_template (render : String → String) (lit : String → Option PyVal) :
    PyVal → PyVal
  | PyVal.dict l => PyVal.dict (processPairs render lit l)
  | PyVal.fdict l => PyVal.dict (processPairs render lit l)
  | PyVal.set l => PyVal.list (processList render lit l)
  | PyVal.fset l => PyVal.list (processList render lit l)
  | PyVal.list l => PyVal.list (processList render lit l)
  | PyVal.tup l => PyVal.list (processList render lit l)
  | PyVal.str s =>
    match lit (render s) with
    | some v => v
    | Option.none => PyVal.str (render s)
  | _ => PyVal.none
termination_by v => sizeOf v

def processPairs (render : String → String) (lit : String → Option PyVal) :
    List (String × PyVal) → List (String × PyVal)
  | [] => []
  | (k, v) :: rest =>
    (k, process_template render lit v) :: processPairs render lit rest
termination_by l => sizeOf l

def processList (render : String → String) (lit : String → Option PyVal) :
    List PyVal → List PyVal
  | [] => []
  | v :: rest => process_template render lit v :: processList render lit rest
termination_by l => sizeOf l

end

/-- C8 (divergence witness): the template walk maps non-string scalars to
Python `None` instead of passing them through; inside a document the
scalar is nulled in place while the mapping node recurses as the claim
describes.  The spec says an integer or boolean leaf passes through
unchanged; the code's `process_template` has no branch for them. -/
theorem process_template_scalar :
    process_template id (fun _ => Option.none) (PyVal.int 5) = PyVal.none ∧
    process_template id (fun _ => Option.none) (PyVal.bool true) = PyVal.none ∧
    process_template id (fun _ => Option.none)
        (PyVal.dict [("port", PyVal.int 22)]) =
      PyVal.dict [("port", PyVal.none)] ∧
    process_template id (fun _ => Option.none) (PyVal.str "x") = PyVal.str "x" := by
  refine ⟨?_, ?_, ?_, ?_⟩ <;> simp [process_template, processPairs]

/-- `Archive.get_or_build` (shelver/archive/base.py), over an explicit
cache-directory state `fs` (the list of paths that exist) and the memoized
`self._path`.  `build_result` is the outcome of the abstract `build()`
step: `some tmp` when it produced a temporary archive, `none` when it
raised.  Returns the call result, the new filesystem state, and the new
memo.  The exclusive-creation branch appends the path; when `build()`
raises, the `finally` releases the lock, the `except Exception` handler
logs and unlinks the path — and then control falls through to
`self._path = path; return path`, so the failure is swallowed and the
(now unlinked) path is returned and memoized. -/
def get_or_build (cache_dir basename : String) (memo : Option String)
    (build_result : Option String) (fs : List String) :
    Except PyErr String × List String × Option String :=
  match memo with
  | some p => (Except.ok p, fs, memo)
  | Option.none =>
    let path := cache_dir ++ "/" ++ basename
    if path ∈ fs then
      (Except.ok path, fs, some path)
    else
      match build_result with
      | some _tmp => (Except.ok path, path :: fs, some path)
      | Option.none => (Except.ok path, (path :: fs).erase path, some path)

/-- C2 (divergence witness): with an empty cache and a failing `build()`,
`get_or_build` unlinks the partially-created entry (the final filesystem
state is again empty) but reports no error: it returns the unlinked path
as a success and memoizes it. -/
theorem get_or_build_swallows_failure :
    get_or_build "cache" "repo-abc.tar.xz" Option.none Option.none [] =
      (Except.ok "cache/repo-abc.tar.xz", [], some "cache/repo-abc.tar.xz") := by
  rfl

/-- Generic first-match association lookup over an arbitrary key type
(Python dict access keyed by tuples, such as the Coordinator's
`(image, version)` build map). -/
def lookupAssoc {κ β : Type} [DecidableEq κ] : List (κ × β) → κ → Option β
  | [], _ => Option.none
  | (k', v) :: rest, k => if k' = k then some v else lookupAssoc rest k

/-- `version = version or image.current_version`: Python truthiness makes
both a missing and an empty version default to the image's current
version. -/
def effective_version (img : Image) (version : Option String) : String :=
  match version with
  | Option.none => img.current_version
  | some v => if v = "" then img.current_version else v

/-- Coordinator state (shelver/build/coordinator.py): the `builds` map from
`(image, version)` to its Build Future, the `pending` set, the `stopping`
flag, and a counter allocating future identities (each
`asyncio.ensure_future` call creates a distinct future; identity is
modelled by creation index). -/
structure Coordinator where
  builds : List ((Image × String) × Nat)
  pending : List Nat
  stopping : Bool
  next_future : Nat
  deriving DecidableEq, Repr

def Coordinator.init : Coordinator :=
  { builds := [], pending := [], stopping := false, next_future := 0 }

/-- `Coordinator.get_or_run_build`: default the version, return the
existing future for the key when present; otherwise refuse when stopping,
or create a fresh future, register it in `builds` (dict insertion appends)
and `pending`, and return it.  The completion callbacks are event-loop
effects outside the state modelled here. -/
def get_or_run_build (c : Coordinator) (img : Image) (version : Option String) :
    Except PyErr (Nat × Coordinator) :=
  let v := effective_version img version
  match lookupAssoc c.builds (img, v) with
  | some f => Except.ok (f, c)
  | Option.none =>
    if c.stopping then
      Except.error (.invalidState "Coordinator is stopping, cannot accept new builds")
    else
      Except.ok (c.next_future,
        { builds := c.builds ++ [((img, v), c.next_future)],
          pending := c.next_future :: c.pending,
          stopping := c.stopping,
          next_future := c.next_future + 1 })

/-- A sequence of `get_or_run_build` calls against one Coordinator,
collecting each call's future (or `none` when the call raised). -/
def run_calls (c : Coordinator) :
    List (Image × Option String) → Coordinator × List (Option Nat)
  | [] => (c, [])
  | (img, v) :: rest =>
    match get_or_run_build c img v with
    | Except.ok (f, c') =>
      let r := run_calls c' rest
      (r.1, some f :: r.2)
    | Except.error _ =>
      let r := run_calls c rest
      (r.1, Option.none :: r.2)

theorem lookupAssoc_append {κ β : Type} [DecidableEq κ]
    (l : List (κ × β)) (key : κ) (v : β) (k : κ) :
    lookupAssoc (l ++ [(key, v)]) k =
      match lookupAssoc l k with
      | some g => some g
      | Option.none => if key = k then some v else Option.none := by
  induction l with
  | nil => simp [lookupAssoc]
  | cons p rest ih =>
    obtain ⟨k', v'⟩ := p
    by_cases h : k' = k <;> simp [lookupAssoc, h, ih]

theorem lookupAssoc_none_not_key {κ β : Type} [DecidableEq κ]
    {l : List (κ × β)} {k : κ} (h : lookupAssoc l k = Option.none) :
    k ∉ l.map Prod.fst := by
  induction l with
  | nil => simp
  | cons p rest ih =>
    obtain ⟨k', v'⟩ := p
    by_cases hk : k' = k
    · simp [lookupAssoc, hk] at h
    · simp only [lookupAssoc, if_neg hk] at h
      simp only [List.map_cons, List.mem_cons]
      rintro (rfl | hmem)
      · exact hk rfl
      · exact ih h hmem

/-- One successful call leaves the returned future registered under its
key and preserves every existing binding. -/
theorem get_or_run_build_ok {c : Coordinator} {img : Image}
    {version : Option String} {f : Nat} {c' : Coordinator}
    (h : get_or_run_build c img version = Except.ok (f, c')) :
    lookupAssoc c'.builds (img, effective_version img version) = some f ∧
    (∀ k g, lookupAssoc c.builds k = some g → lookupAssoc c'.builds k = some g) := by
  simp only [get_or_run_build] at h
  cases hl : lookupAssoc c.builds (img, effective_version img version) with
  | some g =>
    rw [hl] at h
    simp only [Except.ok.injEq, Prod.mk.injEq] at h
    obtain ⟨rfl, rfl⟩ := h
    exact ⟨hl, fun k g hk => hk⟩
  | none =>
    rw [hl] at h
    simp only at h
    split at h
    · cases h
    · simp only [Except.ok.injEq, Prod.mk.injEq] at h
      obtain ⟨rfl, rfl⟩ := h
      constructor
      · rw [lookupAssoc_append, hl]
        simp
      · intro k g hk
        rw [lookupAssoc_append, hk]

/-- If a key is already bound, any later successful call in a call
sequence whose effective key matches returns exactly that future. -/
theorem run_calls_hit :
    ∀ calls : List (Image × Option String), ∀ c : Coordinator,
    ∀ k : Image × String, ∀ f : Nat,
    lookupAssoc c.builds k = some f →
    ∀ j : Nat, ∀ img : Image, ∀ v : Option String, ∀ fj : Nat,
    calls[j]? = some (img, v) →
    (img, effective_version img v) = k →
    (run_calls c calls).2[j]? = some (some fj) →
    fj = f := by
  intro calls
  induction calls with
  | nil =>
    intro c k f _ j img v fj hj
    simp at hj
  | cons call rest ih =>
    intro c k f hlk j img v fj hj hkey hr
    obtain ⟨img₀, v₀⟩ := call
    simp only [run_calls] at hr
    match j with
    | 0 =>
      simp only [List.getElem?_cons_zero, Option.some.injEq] at hj
      obtain ⟨rfl, rfl⟩ := Prod.mk.injEq .. ▸ hj.symm
      subst hkey
      cases hcall : get_or_run_build c img v with
      | ok p =>
        obtain ⟨f₀, c₁⟩ := p
        rw [hcall] at hr
        simp only [List.getElem?_cons_zero, Option.some.injEq] at hr
        have : f₀ = f := by
          simp only [get_or_run_build, hlk] at hcall
          simp only [Except.ok.injEq, Prod.mk.injEq] at hcall
          exact hcall.1.symm
        omega
      | error e =>
        rw [hcall] at hr
        simp at hr
    | Nat.succ j' =>
      simp only [List.getElem?_cons_succ] at hj
      cases hcall : get_or_run_build c img₀ v₀ with
      | ok p =>
        obtain ⟨f₀, c₁⟩ := p
        rw [hcall] at hr
        simp only [List.getElem?_cons_succ] at hr
        exact ih c₁ k f ((get_or_run_build_ok hcall).2 k f hlk) j' img v fj hj
          hkey hr
      | error e =>
        rw [hcall] at hr
        simp only [List.getElem?_cons_succ] at hr
        exact ih c k f hlk j' img v fj hj hkey hr

/-- C1: over any sequence of `get_or_run_build` calls, two successful
calls whose `(image, version)` keys agree — version omitted, empty or
explicit, resolved through `image.current_version` — return the identical
Build Future; and the builds map never acquires a second binding for a
key, so at most one Build Future exists per key for the Coordinator's
lifetime. -/
theorem get_or_run_build_dedup :
    (∀ calls : List (Image × Option String), ∀ c : Coordinator,
      ∀ i j : Nat, ∀ img : Image, ∀ vi vj : Option String, ∀ fi fj : Nat,
      i < j →
      calls[i]? = some (img, vi) → calls[j]? = some (img, vj) →
      effective_version img vi = effective_version img vj →
      (run_calls c calls).2[i]? = some (some fi) →
      (run_calls c calls).2[j]? = some (some fj) →
      fi = fj) ∧
    (∀ c : Coordinator, ∀ img : Image, ∀ v : Option String, ∀ f : Nat,
      ∀ c' : Coordinator, get_or_run_build c img v = Except.ok (f, c') →
      (c.builds.map Prod.fst).Nodup → (c'.builds.map Prod.fst).Nodup) := by
  constructor
  · intro calls
    induction calls with
    | nil =>
      intro c i j img vi vj fi fj _ hi
      simp at hi
    | cons call rest ih =>
      intro c i j img vi vj fi fj hij hi hj heff hri hrj
      obtain ⟨img₀, v₀⟩ := call
      simp only [run_calls] at hri hrj
      match i, j with
      | 0, Nat.succ j' =>
        simp only [List.getElem?_cons_zero, Option.some.injEq] at hi
        obtain ⟨rfl, rfl⟩ := Prod.mk.injEq .. ▸ hi.symm
        simp only [List.getElem?_cons_succ] at hj
        cases hcall : get_or_run_build c img vi with
        | ok p =>
          obtain ⟨f₀, c₁⟩ := p
          rw [hcall] at hri hrj
          simp only [List.getElem?_cons_zero, Option.some.injEq] at hri
          simp only [List.getElem?_cons_succ] at hrj
          obtain ⟨hreg, _⟩ := get_or_run_build_ok hcall
          have hfj : fj = f₀ :=
            run_calls_hit rest c₁ (img, effective_version img vi) f₀ hreg j'
              img vj fj hj (by rw [heff]) hrj
          omega
        | error e =>
          rw [hcall] at hri
          simp at hri
      | Nat.succ i', Nat.succ j' =>
        simp only [List.getElem?_cons_succ] at hi hj
        cases hcall : get_or_run_build c img₀ v₀ with
        | ok p =>
          obtain ⟨f₀, c₁⟩ := p
          rw [hcall] at hri hrj
          simp only [List.getElem?_cons_succ] at hri hrj
          exact ih c₁ i' j' img vi vj fi fj (by omega) hi hj heff hri hrj
        | error e =>
          rw [hcall] at hri hrj
          simp only [List.getElem?_cons_succ] at hri hrj
          exact ih c i' j' img vi vj fi fj (by omega) hi hj heff hri hrj
  · intro c img v f c' h hnd
    simp only [get_or_run_build] at h
    cases hl : lookupAssoc c.builds (img, effective_version img v) with
    | some g =>
      rw [hl] at h
      simp only [Except.ok.injEq, Prod.mk.injEq] at h
      obtain ⟨rfl, rfl⟩ := h
      exact hnd
    | none =>
      rw [hl] at h
      simp only at h
      split at h
      · cases h
      · simp only [Except.ok.injEq, Prod.mk.injEq] at h
        obtain ⟨rfl, rfl⟩ := h
        simp only [List.map_append, List.map_cons, List.map_nil]
        rw [List.nodup_append]
        exact ⟨hnd, List.nodup_singleton _,
          by
            intro a ha
            simp only [List.mem_singleton]
            rintro rfl
            exact lookupAssoc_none_not_key hl ha⟩

/-- Witness for C1: two calls for the same image, the second omitting the
version, return the same future id 0. -/
theorem get_or_run_build_dedup_witness :
    (run_calls Coordinator.init
      [({ name := "a", current_version := "1", base := Option.none }, some "1"),
       ({ name := "a", current_version := "1", base := Option.none },
        Option.none)]).2 = [some 0, some 0] ∧ (0 : Nat) = 0 :=
  ⟨rfl,
    get_or_run_build_dedup.1
      [({ name := "a", current_version := "1", base := Option.none }, some "1"),
       ({ name := "a", current_version := "1", base := Option.none }, Option.none)]
      Coordinator.init 0 1
      { name := "a", current_version := "1", base := Option.none }
      (some "1") Option.none 0 0 (by decide) rfl rfl rfl rfl rfl⟩

/-- `Registry.get_image_artifact(image, version, default=None)`: look up
the versions index at `(image, version or image.current_version)`. -/
def get_image_artifact_opt (reg : Registry) (img : Image)
    (version : Option String) : Option Artifact :=
  lookupAssoc reg.versions (img.name, effective_version img version)

/-- `Registry.get_artifact(name)` with no default.  On a missing name the
source executes `raise UnknownArtifactError(name)` — but
`UnknownArtifactError.__init__` (shelver/errors.py) requires both `name`
and `version` positional arguments, so constructing the exception itself
raises `TypeError: __init__() missing 1 required positional argument:
'version'`, and that `TypeError` is what propagates. -/
def get_artifact (reg : Registry) (name : String) : Except PyErr Artifact :=
  match lookupKV reg.artifacts name with
  | some a => Except.ok a
  | Option.none => Except.error (.typeError
      "UnknownArtifactError.init missing 1 required positional argument: version")

/-- Outcome of awaiting an asyncio future: a value, a raised exception, or
cooperative cancellation. -/
inductive BErr where
  | py : PyErr → BErr
  | cancelled : BErr
  deriving DecidableEq, Repr

/-- `Coordinator._get_base_artifact`.  `recursive` is the awaited outcome
of the recursively triggered `get_or_run_build` for the base image, and
`reg2` is the registry state after that await (the child build registers
artifacts; the re-query after the await consults the updated registry).
For a base that is not a catalog image the registered artifact is fetched
with `get_artifact`, failing when absent. -/
def _get_base_artifact (reg reg2 : Registry) (img : Image)
    (recursive : Except BErr (List Artifact)) : Except BErr (Option Artifact) :=
  match Image.base_with_version img with
  | (Option.none, _) => Except.ok Option.none
  | (some base_name, base_version) =>
    match reg.get_image_opt base_name with
    | some base_image =>
      match get_image_artifact_opt reg base_image base_version with
      | some a => Except.ok (some a)
      | Option.none =>
        match recursive with
        | Except.error e => Except.error e
        | Except.ok artifacts =>
          match artifacts with
          | [a] => Except.ok (some a)
          | _ =>
            match get_image_artifact_opt reg2 base_image base_version with
            | some a => Except.ok (some a)
            | Option.none => Except.error (.py (.shelver (.unknownArtifact
                base_image.name (effective_version base_image base_version))))
    | Option.none =>
      match get_artifact reg base_name with
      | Except.ok a => Except.ok (some a)
      | Except.error e => Except.error (.py e)

/-- Observable milestones of the build coroutine, in order: base
resolution entered, base resolved, build slot acquired, slot released. -/
inductive BuildEv where
  | baseStarted | baseResolved | slotAcquired | slotReleased
  deriving DecidableEq, Repr

/-- The registration loop at the end of `Coordinator._run_build`:
`result['id']` misses (`KeyError`) skip the entry, as do `KeyError` or
`ValueError` from `load_artifact_by_id`; other exceptions propagate.
Entries are reduced to string-valued dicts here since only `id` and
`region` are consulted. -/
def register_artifacts (load : String → Option String → Except PyErr Artifact) :
    List (List (String × String)) → Except BErr (List Artifact)
  | [] => Except.ok []
  | result :: rest =>
    match lookupKV result "id" with
    | Option.none => register_artifacts load rest
    | some id =>
      match load id (lookupKV result "region") with
      | Except.ok a =>
        match register_artifacts load rest with
        | Except.ok arts => Except.ok (a :: arts)
        | Except.error e => Except.error e
      | Except.error (.keyError _) => register_artifacts load rest
      | Except.error (.valueError _) => register_artifacts load rest
      | Except.error e => Except.error (.py e)

/-- The body of `Coordinator._run_build` after the version check: resolve
the base artifact — wrapping `ShelverError` and `CancelledError` as a
`ShelverError('Build for base image ... failed')`, while any other
exception (such as the `TypeError` from `get_artifact`) propagates
unwrapped — then acquire the semaphore, run the builder (`runner` is the
awaited outcome of `Builder.run_build`), release the semaphore on every
exit path, and register the produced artifacts. -/
def _run_build_body (reg reg2 : Registry) (img : Image)
    (recursive : Except BErr (List Artifact))
    (runner : Except BErr (List (List (String × String))))
    (load : String → Option String → Except PyErr Artifact) :
    Except BErr (List Artifact) × List BuildEv :=
  match _get_base_artifact reg reg2 img recursive with
  | Except.error BErr.cancelled =>
      (Except.error (.py (.shelver (.generic ("Build for base image " ++
        img.base.getD "" ++ " failed")))), [BuildEv.baseStarted])
  | Except.error (BErr.py pe) =>
      if pe.isShelver then
        (Except.error (.py (.shelver (.generic ("Build for base image " ++
          img.base.getD "" ++ " failed")))), [BuildEv.baseStarted])
      else (Except.error (.py pe), [BuildEv.baseStarted])
  | Except.ok _base_artifact =>
    match runner with
    | Except.error e =>
        (Except.error e, [BuildEv.baseStarted, BuildEv.baseResolved,
          BuildEv.slotAcquired, BuildEv.slotReleased])
    | Except.ok results =>
        (register_artifacts load results,
          [BuildEv.baseStarted, BuildEv.baseResolved,
            BuildEv.slotAcquired, BuildEv.slotReleased])

/-- `Coordinator._run_build`: `if not version: version = current` accepts a
missing or empty version; `elif version != image.current_version` raises a
`ConfigurationError` before anything else runs — the returned event trace
is empty in that case. -/
def _run_build (reg reg2 : Registry) (img : Image) (version : Option String)
    (recursive : Except BErr (List Artifact))
    (runner : Except BErr (List (List (String × String))))
    (load : String → Option String → Except PyErr Artifact) :
    Except BErr (List Artifact) × List BuildEv :=
  match version with
  | Option.none => _run_build_body reg reg2 img recursive runner load
  | some v =>
    if v = "" then _run_build_body reg reg2 img recursive runner load
    else if v ≠ img.current_version then
      (Except.error (.py (.shelver (.config ("Cannot build image " ++ img.name ++
        ": wanted version (" ++ v ++ ") differs from current version (" ++
        img.current_version ++ ")")))), [])
    else _run_build_body reg reg2 img recursive runner load

/-- C6: requesting a truthy version different from `image.current_version`
fails with a `ConfigurationError` before base resolution is entered or a
build slot is acquired (the event trace is empty); requesting the current
version, or omitting it (Python treats an empty version as omitted),
passes the check and runs the normal body. -/
theorem run_build_version_check (reg reg2 : Registry) (img : Image)
    (recursive : Except BErr (List Artifact))
    (runner : Except BErr (List (List (String × String))))
    (load : String → Option String → Except PyErr Artifact) :
    (∀ v : String, v ≠ "" → v ≠ img.current_version →
      _run_build reg reg2 img (some v) recursive runner load =
        (Except.error (.py (.shelver (.config ("Cannot build image " ++
          img.name ++ ": wanted version (" ++ v ++
          ") differs from current version (" ++ img.current_version ++ ")")))),
         []) ∧
      ∀ tr : List BuildEv,
        _run_build reg reg2 img (some v) recursive runner load =
          (Except.error (.py (.shelver (.config ("Cannot build image " ++
            img.name ++ ": wanted version (" ++ v ++
            ") differs from current version (" ++ img.current_version ++ ")")))),
           tr) →
        BuildEv.baseStarted ∉ tr ∧ BuildEv.slotAcquired ∉ tr) ∧
    (_run_build reg reg2 img Option.none recursive runner load =
      _run_build_body reg reg2 img recursive runner load) ∧
    (_run_build reg reg2 img (some img.current_version) recursive runner load =
      _run_build_body reg reg2 img recursive runner load) := by
  refine ⟨?_, rfl, ?_⟩
  · intro v hv hvc
    constructor
    · simp [_run_build, hv, hvc]
    · intro tr htr
      have h1 : _run_build reg reg2 img (some v) recursive runner load =
          (Except.error (.py (.shelver (.config ("Cannot build image " ++
            img.name ++ ": wanted version (" ++ v ++
            ") differs from current version (" ++ img.current_version ++ ")")))),
           ([] : List BuildEv)) := by
        simp [_run_build, hv, hvc]
      have h2 := congrArg Prod.snd (h1.symm.trans htr)
      simp only at h2
      subst h2
      simp
  · by_cases hc : img.current_version = ""
    · simp [_run_build, hc]
    · simp [_run_build, hc]

/-- Witness for C6 at a concrete image and mismatched version. -/
theorem run_build_version_check_witness :
    _run_build { images := [], artifacts := [], versions := [] }
        { images := [], artifacts := [], versions := [] }
        { name := "a", current_version := "1", base := Option.none } (some "2")
        (Except.ok []) (Except.ok [])
        (fun _ _ => Except.error (.keyError "missing")) =
      (Except.error (.py (.shelver (.config
        ("Cannot build image a: wanted version (2) differs from current version (1)")))),
       []) :=
  ((run_build_version_check _ _ _ _ _ _).1 "2" (by decide) (by decide)).1

/-- C10: when base resolution is reachable (the image has a base naming a
catalog image with no pre-registered artifact) and awaiting the recursive
base build is interrupted by `CancelledError`, the build coroutine
converts the cancellation into `ShelverError('Build for base image ...
failed')` — the future terminates as failed, not canceled. -/
theorem run_build_cancelled_base (reg reg2 : Registry) (img bimg : Image)
    (bn : String) (bv : Option String)
    (runner : Except BErr (List (List (String × String))))
    (load : String → Option String → Except PyErr Artifact)
    (hbwv : Image.base_with_version img = (some bn, bv))
    (hgi : reg.get_image_opt bn = some bimg)
    (hart : get_image_artifact_opt reg bimg bv = Option.none) :
    _run_build reg reg2 img Option.none (Except.error BErr.cancelled)
        runner load =
      (Except.error (.py (.shelver (.generic ("Build for base image " ++
        img.base.getD "" ++ " failed")))), [BuildEv.baseStarted]) ∧
    (_run_build reg reg2 img Option.none (Except.error BErr.cancelled)
        runner load).1 ≠ Except.error BErr.cancelled := by
  have hbase : _get_base_artifact reg reg2 img (Except.error BErr.cancelled) =
      Except.error BErr.cancelled := by
    simp only [_get_base_artifact, hbwv, hgi, hart]
  constructor
  · simp only [_run_build, _run_build_body, hbase]
  · simp only [_run_build, _run_build_body, hbase]
    simp

def baseImgC10 : Image :=
  { name := "base", current_version := "9", base := Option.none }

def appImgC10 : Image :=
  { name := "app", current_version := "1", base := some "base" }

def regC10 : Registry :=
  { images := [baseImgC10], artifacts := [], versions := [] }

/-- Witness for C10 at a concrete two-image catalog. -/
theorem run_build_cancelled_base_witness :
    _run_build regC10 regC10 appImgC10 Option.none
        (Except.error BErr.cancelled) (Except.ok [])
        (fun _ _ => Except.error (.keyError "missing")) =
      (Except.error (.py (.shelver (.generic "Build for base image base failed"))),
       [BuildEv.baseStarted]) :=
  (run_build_cancelled_base regC10 regC10 appImgC10 baseImgC10
    "base" Option.none (Except.ok [])
    (fun _ _ => Except.error (.keyError "missing")) rfl rfl rfl).1

/-- The registry and image for the C5 scenario: image `app` has base
`ext`, which is not a catalog image; no artifact named `ext` is
registered. -/
def regC5 : Registry :=
  { images := [{ name := "app", current_version := "1", base := some "ext" }],
    artifacts := [], versions := [] }

def imgC5 : Image := { name := "app", current_version := "1", base := some "ext" }

/-- The same registry with an external artifact registered under `ext`. -/
def regC5' : Registry :=
  { images := [imgC5], artifacts := [("ext", { id := "ami-1" })], versions := [] }

/-- C5 (divergence witness): with the external artifact registered, base
resolution returns it; with it missing, the code's
`raise UnknownArtifactError(name)` fails to construct the exception (its
constructor needs `name` and `version`), so a bare `TypeError` propagates
— `_run_build` does not wrap it as a 'base image failed' `ShelverError`,
because `except (ShelverError, CancelledError)` does not catch
`TypeError`. -/
theorem base_artifact_unknown_typeerror :
    _get_base_artifact regC5' regC5' imgC5 (Except.ok []) =
      Except.ok (some { id := "ami-1" }) ∧
    get_artifact regC5 "ext" = Except.error (.typeError
      "UnknownArtifactError.init missing 1 required positional argument: version") ∧
    _run_build regC5 regC5 imgC5 Option.none (Except.ok []) (Except.ok [])
        (fun _ _ => Except.error (.keyError "missing")) =
      (Except.error (.py (.typeError
        "UnknownArtifactError.init missing 1 required positional argument: version")),
       [BuildEv.baseStarted]) ∧
    PyErr.isShelver (.typeError
      "UnknownArtifactError.init missing 1 required positional argument: version")
      = false := by
  refine ⟨rfl, rfl, rfl, rfl⟩

end Shelver
